import Mathlib

/-!
Verification development for the `serviceowners` library.

The Python sources are embedded shallowly: strings are lists of characters
(`Str`), Python functions become Lean functions, and exceptions become
`Except` results.  The embedded functions mirror, clause by clause, the
functions in `src/serviceowners/patterns.py`, `serviceowners_file.py`,
`ownership.py`, `impact.py` and `lint.py`.

Modelling notes:
* Python `str.strip()` is modelled over the ASCII whitespace characters
  (space, tab, newline, carriage return, vertical tab, form feed), which is
  what the repository ever feeds it.
* The translator `_glob_to_regex` is embedded twice over: as the token
  list it conceptually emits (`globToks`) and as the emitted regex text
  itself (`emitToks`, with `re.escape` modelled by `reEscapeChar`).
  `re.compile` applied to that text is modelled by `sreParseF`, which
  replays the scan of CPython `sre_parse`: in particular a `]` placed
  first in a set is a literal, so the set emitted for an empty class body
  stays open and is closed by the next bare `]` of the emitted text, or
  fails as unterminated when none follows.  A compiled pattern stores the
  engine's parse (`rtoks`); matching (`matchRToks`) gives `.*` any run of
  non-newline characters, a set one character checked against its items
  and negation flag, a literal exactly itself, and the final `$` accepts
  the end of the string or a single trailing newline, exactly as Python
  `re` treats the translated regexes.  `matchToks` is the same matcher on
  the translator's token list; the two are proved to agree whenever every
  class body is nonempty (`matchRToks_toksToR`).
-/

namespace ServiceOwners

/-- Python strings, modelled as lists of characters. -/
abbrev Str := List Char

/-- ASCII whitespace, the characters `str.strip()` and `str.split()` treat as space. -/
def isSpace (c : Char) : Bool :=
  c = ' ' || c = '\t' || c = '\n' || c = '\r' || c = '\x0b' || c = '\x0c'

/-- Python `str.lstrip()`. -/
def lstrip (s : Str) : Str := s.dropWhile isSpace

/-- Python `str.rstrip()`. -/
def rstrip (s : Str) : Str := (s.reverse.dropWhile isSpace).reverse

/-- Python `str.strip()`. -/
def pystrip (s : Str) : Str := rstrip (lstrip s)

/-- Python `str.rstrip("/")`. -/
def rstripSlash (s : Str) : Str := (s.reverse.dropWhile (fun c => c = '/')).reverse

/-- Python `pat.replace("\\", "/")` from `_normalize_pattern`. -/
def backslashToSlash (s : Str) : Str := s.map (fun c => if c = '\\' then '/' else c)

/-- The `while pat.startswith("./"): pat = pat[2:]` loop from `_normalize_pattern`. -/
def stripDotSlash : Str → Str
  | '.' :: '/' :: rest => stripDotSlash rest
  | s => s

/-- Strip a single leading slash, as `_normalize_pattern` does. -/
def stripLeadSlash (s : Str) : Str :=
  match s with
  | '/' :: rest => rest
  | s => s

/-- The error cases of `patterns.py`: `PatternSyntaxError` raised for an empty
pattern, for a pattern denoting the repository root, and for a translated
regex the engine rejects. -/
inductive PatternErr where
  | emptyPattern
  | rootPattern
  | badRegex
  deriving DecidableEq, Repr

/-- Embedding of `_normalize_pattern` from `patterns.py`. -/
def normalizePattern (pat : Str) : Except PatternErr Str :=
  let pat := pystrip pat
  if pat = [] then .error .emptyPattern
  else
    let pat := backslashToSlash pat
    let pat := stripDotSlash pat
    let pat := stripLeadSlash pat
    if pat = [] then .error .rootPattern
    else if pat.getLast? = some '/' then .ok (rstripSlash pat ++ ['/', '*', '*'])
    else .ok pat

/-- One token of the translated regex, as emitted by `_glob_to_regex`:
`star2` is the `.*` emitted for a `**` run, `star1` the `[^/]*` emitted
for a single `*`, `qmark` the `[^/]` emitted for `?`, `cls inner` the
class `[inner]` (with the glob `!` negation marker already rewritten to
`^` and backslashes doubled, as the source does), and `lit c` the
`re.escape`d literal character `c`. -/
inductive Tok where
  | star2
  | star1
  | qmark
  | cls (inner : Str)
  | lit (c : Char)
  deriving DecidableEq, Repr

/-- The character-class scan of `_glob_to_regex`: given the text following
`[`, skip an optional leading `!` or `^`, look for the closing `]`; return
the raw class body together with the rest of the pattern after `]`, or
`none` when no `]` exists (the lone `[` is then taken literally). -/
def scanClass (rest : Str) : Option (Str × Str) :=
  match rest with
  | [] => none
  | c :: r =>
    if c = '!' || c = '^' then
      match r.dropWhile (fun x => x ≠ ']') with
      | _ :: rem => some (c :: r.takeWhile (fun x => x ≠ ']'), rem)
      | [] => none
    else
      match rest.dropWhile (fun x => x ≠ ']') with
      | _ :: rem => some (rest.takeWhile (fun x => x ≠ ']'), rem)
      | [] => none

/-- The class-body rewriting of `_glob_to_regex`: a leading glob `!`
becomes the regex negation `^`, and backslashes are doubled. -/
def convertInner (inner : Str) : Str :=
  let inner := match inner with
    | '!' :: r => '^' :: r
    | r => r
  inner.flatMap (fun c => if c = '\\' then ['\\', '\\'] else [c])

/-- Fuelled worker for the tokenizer; the fuel only serves termination and
is always at least the length of the remaining input. -/
def globToksF : Nat → Str → List Tok
  | 0, _ => []
  | _, [] => []
  | fuel + 1, c :: rest =>
    if c = '*' then
      if rest.head? = some '*' then
        .star2 :: globToksF fuel (rest.dropWhile (fun x => x = '*'))
      else .star1 :: globToksF fuel rest
    else if c = '?' then .qmark :: globToksF fuel rest
    else if c = '[' then
      match scanClass rest with
      | some (inner, rem) => .cls (convertInner inner) :: globToksF fuel rem
      | none => .lit '[' :: globToksF fuel rest
    else .lit c :: globToksF fuel rest

/-- Embedding of `_glob_to_regex` from `patterns.py`, producing the token
list of the translated regex. -/
def globToks (s : Str) : List Tok := globToksF s.length s

/-- One parsed item of a regex character class: a single character or a range. -/
inductive ClsItem where
  | one (c : Char)
  | range (lo hi : Char)
  deriving DecidableEq, Repr

/-- Model of the regex engine parsing the body of a translated character
class (the part between `[` and `]`, after an optional leading `^`):
`\x` is an escaped literal, `a-b` a range which the engine rejects when
reversed, a `-` at either end is literal.  `none` models `re.error`. -/
def parseClassItems : Str → Option (List ClsItem)
  | [] => some []
  | ['\\'] => none
  | '\\' :: c :: rest => (parseClassItems rest).map (.one c :: ·)
  | [a, '-'] => some [.one a, .one '-']
  | a :: '-' :: b :: rest =>
    if a ≤ b then (parseClassItems rest).map (.range a b :: ·) else none
  | a :: rest => (parseClassItems rest).map (.one a :: ·)

/-- Whether a stored class body starts with the regex negation marker;
returns the marker-free body as well. -/
def classBody (inner : Str) : Bool × Str :=
  match inner with
  | '^' :: r => (true, r)
  | r => (false, r)

/-- One class item matching one character. -/
def itemMatch (it : ClsItem) (c : Char) : Bool :=
  match it with
  | .one d => d = c
  | .range lo hi => lo ≤ c && c ≤ hi

/-- A translated character class matching one character. -/
def classMatch (inner : Str) (c : Char) : Bool :=
  let (neg, body) := classBody inner
  match parseClassItems body with
  | some items => neg ≠ items.any (fun it => itemMatch it c)
  | none => false

/-- A single-character token matching one character of the path. -/
def tokMatch1 (t : Tok) (c : Char) : Bool :=
  match t with
  | .qmark => c ≠ '/'
  | .cls inner => classMatch inner c
  | .lit d => d = c
  | _ => false

/-- Suffixes of `s` reachable by deleting a (possibly empty) prefix all of
whose characters satisfy `p`; these are the continuation points the engine
may try after a starred atom restricted to `p`. -/
def dropCandidates (p : Char → Bool) : Str → List Str
  | [] => [[]]
  | c :: s => (c :: s) :: (if p c then dropCandidates p s else [])

/-- The matcher on the translator's token list: the behaviour the engine
gives the emitted body whenever every token's text is self-contained
(proved as `matchRToks_toksToR`), and the glob reading of the token list
used by the claim statements.  The final `$` also accepts one trailing
newline, as Python `re` does. -/
def matchToks : List Tok → Str → Bool
  | [], s => s = [] || s = ['\n']
  | .star2 :: ts, s => (dropCandidates (fun c => c ≠ '\n') s).any (fun s' => matchToks ts s')
  | .star1 :: ts, s => (dropCandidates (fun c => c ≠ '/') s).any (fun s' => matchToks ts s')
  | _ :: _, [] => false
  | t :: ts, c :: s => tokMatch1 t c && matchToks ts s

/-- Suffixes of `s` that start right after a `/` whose preceding characters
are all newline-free: the continuation points of the `.*/` alternative in
the basename anchoring `(^|.*/)`. -/
def slashSplits : Str → List Str
  | [] => []
  | c :: s => (if c = '/' then [s] else []) ++ (if c ≠ '\n' then slashSplits s else [])

/-- The characters Python `re.escape` prefixes with a backslash
(CPython `re._special_chars_map`): regex metacharacters and ASCII
whitespace; every other character is kept as itself. -/
def reSpecial (c : Char) : Bool :=
  c = '(' || c = ')' || c = '[' || c = ']' || c = '{' || c = '}' ||
  c = '?' || c = '*' || c = '+' || c = '-' || c = '|' || c = '^' ||
  c = '$' || c = '\\' || c = '.' || c = '&' || c = '~' || c = '#' ||
  c = ' ' || c = '\t' || c = '\n' || c = '\r' || c = '\x0b' || c = '\x0c'

/-- Python `re.escape` on one character. -/
def reEscapeChar (c : Char) : Str := if reSpecial c then ['\\', c] else [c]

/-- The regex text `_glob_to_regex` emits for one token: `.*` for a `**`
run, `[^/]*` for a single `*`, `[^/]` for `?`, the stored class body
between brackets, and the `re.escape`d literal. -/
def emitTok : Tok → Str
  | .star2 => ['.', '*']
  | .star1 => ['[', '^', '/', ']', '*']
  | .qmark => ['[', '^', '/', ']']
  | .cls inner => '[' :: (inner ++ [']'])
  | .lit c => reEscapeChar c

/-- The translated regex body, `"".join(out)` in `_glob_to_regex`. -/
def emitToks : List Tok → Str
  | [] => []
  | t :: ts => emitTok t ++ emitToks ts

/-- One atom of the parsed translated regex, as the engine reads it:
`.` (any character but newline), a literal character, or a character set
with a negation flag. -/
inductive RAtom where
  | rdot
  | rch (c : Char)
  | rcls (neg : Bool) (items : List ClsItem)
  deriving DecidableEq, Repr

/-- A parsed regex element: an atom together with whether a `*` follows. -/
abbrev RTok := RAtom × Bool

/-- One set item as `sre_parse` reads it: `\x` is the escaped literal `x`
(`_class_escape`; an error at the end of input), any other character is
itself.  Returns the item's character and the remaining text. -/
def sreSetCode1 (c : Char) (rest : Str) : Option (Char × Str) :=
  if c = '\\' then
    match rest with
    | [] => none
    | d :: r2 => some (d, r2)
  else some (c, rest)

/-- Model of the character-set loop of CPython `sre_parse._parse` (the
text after `[` and after the optional `^`): a `]` closes the set once at
least one item was read (`nonempty`), so a `]` read before any item is a
literal; after an item a `-` starts a range unless the character after
the `-` is the closing `]` (then the item and the `-` are both literals)
— an escaped endpoint still forms a range, and a reversed range is an
error; running out of input is an unterminated set.  Returns the items
and the text after the closing `]`; `none` models `re.error`.  The fuel
only serves termination and is at least the input length at every call. -/
def sreSetF : Nat → Bool → Str → Option (List ClsItem × Str)
  | 0, _, _ => none
  | _ + 1, _, [] => none
  | fuel + 1, nonempty, c :: rest =>
    if (c = ']') && nonempty then some ([], rest)
    else
      match sreSetCode1 c rest with
      | none => none
      | some (c1, r2) =>
        if r2.head? = some '-' then
          match r2.tail with
          | [] => none
          | d :: r4 =>
            if d = ']' then some ([.one c1, .one '-'], r4)
            else
              match sreSetCode1 d r4 with
              | none => none
              | some (c2, r5) =>
                if c1 ≤ c2 then
                  (sreSetF fuel true r5).map (fun p => (ClsItem.range c1 c2 :: p.1, p.2))
                else none
        else (sreSetF fuel true r2).map (fun p => (ClsItem.one c1 :: p.1, p.2))

/-- Entry to the set scan: `negate = sourcematch("^")` consumes an
optional leading `^`. -/
def sreSetStart (s : Str) : Option (Bool × List ClsItem × Str) :=
  if s.head? = some '^' then
    (sreSetF (s.tail.length + 1) false s.tail).map (fun p => (true, p.1, p.2))
  else
    (sreSetF (s.length + 1) false s).map (fun p => (false, p.1, p.2))

/-- One atom of the translated body as the engine reads it: `[` opens a
set, `\x` is the literal `x` (an error at the end of the input), `.` is
any-char, a bare `*` has nothing to repeat; any other character is a
literal (on the translator's image every regex metacharacter other than
`[`, `.` and the `*` the translator itself emits appears escaped).
Returns the atom and the remaining text. -/
def sreAtom (c : Char) (rest : Str) : Option (RAtom × Str) :=
  if c = '[' then
    match sreSetStart rest with
    | none => none
    | some p => some (.rcls p.1 p.2.1, p.2.2)
  else if c = '\\' then
    match rest with
    | [] => none
    | d :: r2 => some (.rch d, r2)
  else if c = '.' then some (.rdot, rest)
  else if c = '*' then none
  else some (.rch c, rest)

/-- Model of `re.compile` parsing the translated body: a sequence of
atoms, each optionally followed by one `*` (a second `*` is a repeat of
a repeat and an error).  `none` models `re.error`.  The anchoring text
`compile_pattern` puts around the body (`^`, `$`, `(^|.*/)`) contains no
`[`, so the full regex compiles exactly when the body parses; the
anchors' matching semantics are replayed by `CompiledPattern.matches`.
The fuel only serves termination and is at least the input length at
every call. -/
def sreParseF : Nat → Str → Option (List RTok)
  | 0, _ => none
  | _ + 1, [] => some []
  | fuel + 1, c :: rest =>
    match sreAtom c rest with
    | none => none
    | some ar =>
      if ar.2.head? = some '*' then
        if ar.2.tail.head? = some '*' then none
        else (sreParseF fuel ar.2.tail).map (fun ts => (ar.1, true) :: ts)
      else (sreParseF fuel ar.2).map (fun ts => (ar.1, false) :: ts)

/-- One parsed atom matching one character: `.` rejects only a newline, a
set checks its items against the negation flag (a negated set does accept
a newline), a literal is itself. -/
def atomMatch : RAtom → Char → Bool
  | .rdot, c => c ≠ '\n'
  | .rch d, c => d = c
  | .rcls neg items, c => neg ≠ items.any (fun it => itemMatch it c)

/-- The regex engine matching the parsed body against the whole remaining
path, including the final `$` (which also accepts one trailing newline,
as Python `re` does). -/
def matchRToks : List RTok → Str → Bool
  | [], s => s = [] || s = ['\n']
  | (a, true) :: ts, s => (dropCandidates (atomMatch a) s).any (fun r => matchRToks ts r)
  | (_, false) :: _, [] => false
  | (a, false) :: ts, c :: s => atomMatch a c && matchRToks ts s

/-- Whether the engine reads a token's emitted text as self-contained: a
class with an empty marker-free body emits `[]` or `[^]`, whose `]` the
engine reads as a literal, so that set is only closed by a later bare `]`
of the following emitted text (or not at all); every other token's text
stands on its own. -/
def tokRendered : Tok → Bool
  | .cls inner => !(classBody inner).2.isEmpty
  | _ => true

/-- The parse the engine produces for the emitted text of one
self-contained token (cf. `sreParseF`); `none` when the class body fails
to parse (a reversed range). -/
def tokToR : Tok → Option RTok
  | .star2 => some (.rdot, true)
  | .star1 => some (.rcls true [.one '/'], true)
  | .qmark => some (.rcls true [.one '/'], false)
  | .lit c => some (.rch c, false)
  | .cls inner =>
    (parseClassItems (classBody inner).2).map
      (fun its => (.rcls (classBody inner).1 its, false))

/-- `tokToR` over a token list. -/
def toksToR : List Tok → Option (List RTok)
  | [] => some []
  | t :: ts =>
    match tokToR t, toksToR ts with
    | some r, some rs => some (r :: rs)
    | _, _ => none

/-- Embedding of `CompiledPattern` from `patterns.py`; the compiled
`re.Pattern` object is represented by the engine's parse of the
translated body (`rtoks`) plus the anchoring mode chosen by
`compile_pattern` (`anchored` records whether the normalized pattern
contains a `/`); `toks` keeps the translator's token list the body was
emitted from. -/
structure CompiledPattern where
  raw : Str
  normalized : Str
  anchored : Bool
  toks : List Tok
  rtoks : List RTok
  deriving DecidableEq, Repr

/-- Embedding of `CompiledPattern.matches`: an anchored pattern is the
regex `^body$` matched against the whole path; a basename pattern is
`(^|.*/)body$`. -/
def CompiledPattern.matches (cp : CompiledPattern) (path : Str) : Bool :=
  if cp.anchored then matchRToks cp.rtoks path
  else matchRToks cp.rtoks path || (slashSplits path).any (fun s => matchRToks cp.rtoks s)

/-- Embedding of `compile_pattern` from `patterns.py`: normalize,
translate, and hand the translated body to the engine; a parse error
becomes `PatternSyntaxError`. -/
def compilePattern (pattern : Str) : Except PatternErr CompiledPattern :=
  match normalizePattern pattern with
  | .error e => .error e
  | .ok norm =>
    let body := globToks norm
    match sreParseF ((emitToks body).length + 1) (emitToks body) with
    | none => .error .badRegex
    | some rts =>
      .ok { raw := pattern, normalized := norm, anchored := norm.contains '/',
            toks := body, rtoks := rts }

/-! Embedding of `serviceowners_file.py`. -/

/-- Python `text.splitlines()` restricted to the line breaks occurring in
this repository (`\n`, `\r\n`, `\r`). -/
def splitlines : Str → List Str
  | [] => []
  | '\r' :: '\n' :: s => [] :: splitlines s
  | '\r' :: s => [] :: splitlines s
  | '\n' :: s => [] :: splitlines s
  | c :: s =>
    match splitlines s with
    | [] => [[c]]
    | l :: ls => (c :: l) :: ls

/-- Python `str.split()` with no separator: whitespace-delimited words,
empty pieces discarded. -/
def pysplit : Str → List Str
  | [] => []
  | c :: s =>
    if isSpace c then pysplit s
    else
      match s.head? with
      | none => [[c]]
      | some d =>
        if isSpace d then [c] :: pysplit s
        else
          match pysplit s with
          | w :: ws => (c :: w) :: ws
          | [] => [[c]]

/-- The scanning loop of `_strip_inline_comment`: walk the line toggling
`in_quote` on every `'` or `"`, and cut at the first `#` that is outside
quotes and at line start or preceded by whitespace.  (For a `#` the quote
toggle of the same iteration never fires, so the pre-toggle state is
checked, exactly as in the source.) -/
def stripCommentGo (inq : Bool) (prev : Option Char) : Str → Str
  | [] => []
  | ch :: rest =>
    if ch = '#' && !inq && (match prev with | none => true | some c => isSpace c) then []
    else
      let inq' := if ch = '\'' || ch = '"' then !inq else inq
      ch :: stripCommentGo inq' (some ch) rest

/-- Embedding of `_strip_inline_comment` from `serviceowners_file.py`:
the kept part of the line, right-stripped (both the comment case
`line[:i].rstrip()` and the no-comment case `line.rstrip()`). -/
def stripInlineComment (line : Str) : Str := rstrip (stripCommentGo false none line)

/-- Embedding of `Rule` from `serviceowners_file.py`. -/
structure Rule where
  pattern : Str
  service : Str
  line : Nat
  source : Str
  compiled : CompiledPattern
  deriving DecidableEq, Repr

/-- The `ParseError` cases that `parse_serviceowners_text` raises. -/
inductive ParseErr where
  | wrongColumns (line : Nat)
  | emptyService (line : Nat)
  | badPattern (line : Nat) (e : PatternErr)
  deriving DecidableEq, Repr

/-- The body of the `for idx, raw in enumerate(...)` loop of
`parse_serviceowners_text`, processing the remaining lines starting at
1-based line number `idx`. -/
def parseLines (src : Str) : Nat → List Str → Except ParseErr (List Rule)
  | _, [] => .ok []
  | idx, raw :: rest =>
    let stripped := pystrip raw
    if stripped = [] || stripped.head? = some '#' then parseLines src (idx + 1) rest
    else
      let line := pystrip (stripInlineComment raw)
      if line = [] then parseLines src (idx + 1) rest
      else
        match pysplit line with
        | [pat0, svc0] =>
          let pat := pystrip pat0
          let svc := pystrip svc0
          if svc = [] then .error (.emptyService idx)
          else
            match compilePattern pat with
            | .error e => .error (.badPattern idx e)
            | .ok cp =>
              match parseLines src (idx + 1) rest with
              | .error e => .error e
              | .ok rs =>
                .ok ({ pattern := pat, service := svc, line := idx, source := src,
                       compiled := cp } :: rs)
        | _ => .error (.wrongColumns idx)

/-- Embedding of `parse_serviceowners_text` (with its default `source`). -/
def parseServiceownersText (text : Str) : Except ParseErr (List Rule) :=
  parseLines ("SERVICEOWNERS".toList) 1 (splitlines text)

/-! Embedding of `ownership.py`. -/

/-- Embedding of `Match` from `ownership.py`; `ruleMatches` embeds the
`matches` field (whose Python name is a reserved word here). -/
structure Match where
  path : Str
  chosen : Option Rule
  ruleMatches : List Rule
  deriving DecidableEq, Repr

/-- The `service` property of `Match`. -/
def Match.service (m : Match) : Option Str := m.chosen.map (fun r => r.service)

/-- Embedding of `OwnershipIndex.match`: the loop collects every rule whose
compiled pattern matches the path, in rule order, which is a filter; the
chosen rule is `matches[-1] if matches else None`. -/
def indexMatch (rules : List Rule) (path : Str) : Match :=
  let ms := rules.filter (fun r => r.compiled.matches path)
  { path := path, chosen := ms.getLast?, ruleMatches := ms }

/-! Embedding of `impact.py`.  Python dicts keyed by strings are modelled
as insertion-ordered association lists. -/

/-- Python string comparison `s <= t`: lexicographic by code point, a
proper prefix sorting first. -/
def lexLe : Str → Str → Bool
  | [], _ => true
  | _ :: _, [] => false
  | a :: s, b :: t => if a < b then true else if b < a then false else lexLe s t

/-- `lexLe` as a relation, for the sorting lemmas. -/
def strLe (s t : Str) : Prop := lexLe s t = true

instance : DecidableRel strLe := fun s t => instDecidableEqBool (lexLe s t) true

/-- Python `sorted(set(l))` for lists of strings: the distinct elements in
ascending order. -/
def sortedDedup (l : List Str) : List Str := List.insertionSort strLe l.dedup

/-- Dict lookup `d.get(k)` on an association list. -/
def alGet {α : Type} (d : List (Str × α)) (k : Str) : Option α :=
  match d with
  | [] => none
  | kv :: rest => if kv.1 = k then some kv.2 else alGet rest k

/-- Dict assignment `d[k] = v`: overwrite in place, else append a new key
at the end, matching Python dict insertion order. -/
def alSet {α : Type} (d : List (Str × α)) (k : Str) (v : α) : List (Str × α) :=
  match d with
  | [] => [(k, v)]
  | kv :: rest => if kv.1 == k then (kv.1, v) :: rest else kv :: alSet rest k v

/-- Python `d.setdefault(k, []).append(v)`. -/
def dictAppend (d : List (Str × List Str)) (k : Str) (v : Str) : List (Str × List Str) :=
  alSet d k (((alGet d k).getD []) ++ [v])

/-- Embedding of `ImpactReport` from `impact.py` (`servicesToFiles` and
`overlaps` are dicts in insertion order). -/
structure ImpactReport where
  servicesToFiles : List (Str × List Str)
  unmappedFiles : List Str
  overlaps : List (Str × List Str)
  deriving DecidableEq, Repr

/-- One iteration of the `for path in changed_files` loop of
`compute_impact`, acting on the state `(services_to_files, unmapped,
overlaps)`. -/
def impactStep (rules : List Rule)
    (st : List (Str × List Str) × List Str × List (Str × List Str)) (path : Str) :
    List (Str × List Str) × List Str × List (Str × List Str) :=
  let (s2f, unmapped, ovl) := st
  let m := indexMatch rules path
  match m.service with
  | none => (s2f, unmapped ++ [path], ovl)
  | some svc =>
    let s2f := dictAppend s2f svc path
    let ovl :=
      if 1 < m.ruleMatches.length then alSet ovl path (m.ruleMatches.map (fun r => r.service))
      else ovl
    (s2f, unmapped, ovl)

/-- The final per-bucket `sorted(set(files))` pass of `compute_impact`. -/
def mapValues (f : List Str → List Str) (d : List (Str × List Str)) : List (Str × List Str) :=
  d.map (fun kv => (kv.1, f kv.2))

/-- Embedding of `compute_impact` from `impact.py`. -/
def computeImpact (rules : List Rule) (changed : List Str) : ImpactReport :=
  let st := changed.foldl (impactStep rules) ([], [], [])
  { servicesToFiles := mapValues sortedDedup st.1
    unmappedFiles := sortedDedup st.2.1
    overlaps := st.2.2 }

/-! Embedding of `lint.py`.  The file-listing collaborator (`repo_root`
plus `git_ls_files`) is modelled by an `Option (Except Str (List Str))`:
`none` is a missing `repo_root`, `some (.error e)` a `GitError` with
message `e`, and `some (.ok files)` the tracked file listing. -/

/-- The fields of `Service` from `services_file.py` that `lint_rules`
reads (owner list and contact). -/
structure OwnerRef where
  team : Option Str
  user : Option Str
  email : Option Str
  deriving DecidableEq, Repr

/-- Embedding of `Contact` from `services_file.py`. -/
structure Contact where
  slack : Option Str
  email : Option Str
  deriving DecidableEq, Repr

/-- Embedding of `Service` from `services_file.py`, restricted to the
fields `lint_rules` consults. -/
structure Service where
  name : Str
  owners : List OwnerRef
  contact : Contact
  deriving DecidableEq, Repr

/-- Python truthiness of an optional string: `None` and `""` are falsy. -/
def optTruthy : Option Str → Bool
  | none => false
  | some s => s ≠ []

/-- Embedding of `Issue` from `lint.py`. -/
structure Issue where
  severity : Str
  code : Str
  message : Str
  file : Option Str
  line : Option Nat
  hint : Option Str
  deriving DecidableEq, Repr

/-- Embedding of `LintResult` from `lint.py`. -/
structure LintResult where
  issues : List Issue
  deriving DecidableEq, Repr

/-- The `has_errors` property. -/
def LintResult.hasErrors (r : LintResult) : Bool :=
  r.issues.any (fun i => i.severity == "ERROR".toList)

/-- The `has_warnings` property. -/
def LintResult.hasWarnings (r : LintResult) : Bool :=
  r.issues.any (fun i => i.severity == "WARN".toList)

/-- Decimal digits of a natural number, as characters (for the f-string
line numbers in issue messages). -/
def natToStrGo : Nat → Nat → Str
  | 0, _ => []
  | fuel + 1, n =>
    if n < 10 then [Nat.digitChar n]
    else natToStrGo fuel (n / 10) ++ [Nat.digitChar (n % 10)]

/-- Python `str(n)` for a natural number. -/
def natToStr (n : Nat) : Str := natToStrGo (n + 1) n

/-- Python `sep.join(parts)`. -/
def joinSep (sep : Str) : List Str → Str
  | [] => []
  | [s] => s
  | s :: rest => s ++ sep ++ joinSep sep rest

/-- A single quote character, spliced into issue messages. -/
def sq : Str := ['\'']

/-- The severity `"WARN" if not strict else "ERROR"`. -/
def warnSeverity (strict : Bool) : Str :=
  if strict then "ERROR".toList else "WARN".toList

/-- The `DUPLICATE_PATTERN` issue built in `lint_rules`. -/
def dupIssue (strict : Bool) (prev r : Rule) : Issue :=
  { severity := warnSeverity strict
    code := "DUPLICATE_PATTERN".toList
    message := "Pattern ".toList ++ sq ++ r.pattern ++ sq
      ++ " is defined multiple times (last-match wins). Previous: ".toList
      ++ prev.service ++ " (line ".toList ++ natToStr prev.line
      ++ "), this: ".toList ++ r.service ++ " (line ".toList ++ natToStr r.line
      ++ ").".toList
    file := some r.source
    line := some r.line
    hint := some "Remove duplicates or make precedence explicit.".toList }

/-- The duplicate-pattern pass of `lint_rules`: walk the rules keeping the
`seen` dict; a pattern seen before with a different service yields an
issue (and leaves `seen` unchanged), otherwise the rule is stored. -/
def lintDupsGo (strict : Bool) : List Rule → List (Str × Rule) → List Issue
  | [], _ => []
  | r :: rest, seen =>
    match alGet seen r.pattern with
    | some prev =>
      if prev.service ≠ r.service then dupIssue strict prev r :: lintDupsGo strict rest seen
      else lintDupsGo strict rest (alSet seen r.pattern r)
    | none => lintDupsGo strict rest (alSet seen r.pattern r)

/-- The `UNKNOWN_SERVICE` issue built in `lint_rules`. -/
def unknownServiceIssue (strict : Bool) (r : Rule) : Issue :=
  { severity := warnSeverity strict
    code := "UNKNOWN_SERVICE".toList
    message := "SERVICEOWNERS references unknown service ".toList ++ sq ++ r.service ++ sq
      ++ ".".toList
    file := some r.source
    line := some r.line
    hint := some "Add it to services.yaml (or fix the spelling).".toList }

/-- The unknown-service pass of `lint_rules`. -/
def unknownServiceIssues (strict : Bool) (rules : List Rule)
    (services : List (Str × Service)) : List Issue :=
  rules.filterMap (fun r =>
    if (alGet services r.service).isSome then none else some (unknownServiceIssue strict r))

/-- The `SERVICE_HAS_NO_CONTACT` issue built in `lint_rules`. -/
def noContactIssue (name : Str) : Issue :=
  { severity := "WARN".toList
    code := "SERVICE_HAS_NO_CONTACT".toList
    message := "Service ".toList ++ sq ++ name ++ sq
      ++ " has no owners and no contact (slack/email).".toList
    file := none
    line := none
    hint := some "Add owners/contact so PRs have someone to page.".toList }

/-- The no-contact pass of `lint_rules` over `services.items()`. -/
def noContactIssues (services : List (Str × Service)) : List Issue :=
  services.filterMap (fun nv =>
    if nv.2.owners = [] && !(optTruthy nv.2.contact.slack || optTruthy nv.2.contact.email)
    then some (noContactIssue nv.1) else none)

/-- The `GIT_REQUIRED` configuration issue for a missing `repo_root`. -/
def gitRequiredIssue (msg : Str) : Issue :=
  { severity := "ERROR".toList, code := "GIT_REQUIRED".toList, message := msg
    file := none, line := none, hint := none }

/-- The `GIT_ERROR` issue for a failed `git ls-files`. -/
def gitErrorIssue (msg : Str) : Issue :=
  { severity := "ERROR".toList, code := "GIT_ERROR".toList, message := msg
    file := none, line := none, hint := none }

/-- The `PATTERN_MATCHES_NOTHING` issue built in `lint_rules`. -/
def matchesNothingIssue (strict : Bool) (r : Rule) : Issue :=
  { severity := warnSeverity strict
    code := "PATTERN_MATCHES_NOTHING".toList
    message := "Pattern ".toList ++ sq ++ r.pattern ++ sq
      ++ " matches no git-tracked files.".toList
    file := some r.source
    line := some r.line
    hint := some "Remove it or fix the glob (or ignore if files are generated later).".toList }

/-- The per-rule dead-pattern scan of the `check_matches` block. -/
def matchesNothingIssues (strict : Bool) (rules : List Rule) (tracked : List Str) : List Issue :=
  rules.filterMap (fun r =>
    if tracked.any (fun f => r.compiled.matches f) then none
    else some (matchesNothingIssue strict r))

/-- The `check_matches` block of `lint_rules`. -/
def lintCheckMatches (strict : Bool) (rules : List Rule)
    (repo : Option (Except Str (List Str))) : List Issue :=
  match repo with
  | none => [gitRequiredIssue "--check-matches requires repo_root (git repo).".toList]
  | some (.error e) => gitErrorIssue e :: matchesNothingIssues strict rules []
  | some (.ok tracked) => matchesNothingIssues strict rules tracked

/-- The capped overlap-example scan of the `check_overlaps` block: files
matched by more than one distinct service produce `"f -> s1, s2"` example
lines, stopping once 25 examples are collected. -/
def overlapScan (rules : List Rule) : List Str → List Str → List Str
  | [], acc => acc
  | f :: rest, acc =>
    let m := indexMatch rules f
    if 1 < m.ruleMatches.length then
      let svcs := m.ruleMatches.map (fun r => r.service)
      if 1 < svcs.dedup.length then
        let acc' := acc ++ [f ++ " -> ".toList ++ joinSep ", ".toList svcs]
        if 25 ≤ acc'.length then acc' else overlapScan rules rest acc'
      else overlapScan rules rest acc
    else overlapScan rules rest acc

/-- The aggregate `OVERLAPPING_RULES` issue. -/
def overlapIssue (examples : List Str) : Issue :=
  { severity := "WARN".toList
    code := "OVERLAPPING_RULES".toList
    message := "Some files match multiple services (last-match wins). Examples: ".toList
      ++ joinSep "; ".toList examples
    file := none
    line := none
    hint := some ("Often OK. If it".toList ++ sq
      ++ "s confusing, tighten globs or add comments.".toList) }

/-- The `check_overlaps` block of `lint_rules`. -/
def lintCheckOverlaps (rules : List Rule)
    (repo : Option (Except Str (List Str))) : List Issue :=
  match repo with
  | none => [gitRequiredIssue "--check-overlaps requires repo_root (git repo).".toList]
  | some res =>
    let pre := match res with | .error e => [gitErrorIssue e] | .ok _ => []
    let tracked := match res with | .error _ => [] | .ok fs => fs
    let ex := overlapScan rules tracked []
    pre ++ (if ex.isEmpty then [] else [overlapIssue ex])

/-- Embedding of `lint_rules` from `lint.py`.  The source has no `raise`
statement: every outcome, including requesting an opt-in check without a
`repo_root`, is reported inside the returned `LintResult`. -/
def lintRules (rules : List Rule) (services : List (Str × Service))
    (strict checkMatches checkOverlaps : Bool)
    (repo : Option (Except Str (List Str))) : LintResult :=
  let issues := lintDupsGo strict rules []
  let issues := issues ++
    (if services.isEmpty then []
     else unknownServiceIssues strict rules services ++ noContactIssues services)
  let issues := issues ++ (if checkMatches then lintCheckMatches strict rules repo else [])
  let issues := issues ++ (if checkOverlaps then lintCheckOverlaps rules repo else [])
  { issues := issues }

/-! A small heap model for the aliasing behavior of the `OwnershipIndex`
class: Python list objects live in heap cells, `list(xs)` allocates a
fresh cell holding a copy of the contents, and in-place mutation
overwrites a cell.  `OwnershipIndex.__init__` stores `list(rules)` and the
`rules` property returns `list(self._rules)`. -/

/-- The heap of list objects. -/
structure PyHeap where
  cells : List (List Rule)
  deriving Repr

/-- Allocate a fresh list object, returning its reference. -/
def heapAlloc (h : PyHeap) (v : List Rule) : PyHeap × Nat :=
  (⟨h.cells ++ [v]⟩, h.cells.length)

/-- Read the contents of a list object. -/
def heapRead (h : PyHeap) (r : Nat) : List Rule := (h.cells.get? r).getD []

/-- Mutate a list object in place. -/
def heapWrite (h : PyHeap) (r : Nat) (v : List Rule) : PyHeap := ⟨h.cells.set r v⟩

/-- The `OwnershipIndex` object: it holds only the reference stored in
`self._rules`. -/
structure OwnershipIndexObj where
  rulesRef : Nat
  deriving DecidableEq, Repr

/-- `OwnershipIndex.__init__`: `self._rules = list(rules)` copies the
argument list into a fresh cell. -/
def ownershipIndexInit (h : PyHeap) (argRef : Nat) : PyHeap × OwnershipIndexObj :=
  let (h', r) := heapAlloc h (heapRead h argRef)
  (h', ⟨r⟩)

/-- The `rules` property: `return list(self._rules)` allocates a fresh
copy. -/
def ownershipIndexRules (h : PyHeap) (o : OwnershipIndexObj) : PyHeap × Nat :=
  heapAlloc h (heapRead h o.rulesRef)

/-- `OwnershipIndex.match` reads `self._rules` from the heap. -/
def ownershipIndexMatch (h : PyHeap) (o : OwnershipIndexObj) (path : Str) : Match :=
  indexMatch (heapRead h o.rulesRef) path

/-! Theorems about the embedded program. -/

instance {ε α : Type} [DecidableEq ε] [DecidableEq α] : DecidableEq (Except ε α)
  | .error e, .error f =>
    if h : e = f then .isTrue (by rw [h]) else .isFalse (by simp [h])
  | .error _, .ok _ => .isFalse (by simp)
  | .ok _, .error _ => .isFalse (by simp)
  | .ok a, .ok b =>
    if h : a = b then .isTrue (by rw [h]) else .isFalse (by simp [h])

/-- Looking up the freshly appended cell. -/
theorem getElemAppendCons {α : Type} (l : List α) (x : α) (t : List α) :
    (l ++ x :: t)[l.length]? = some x := by
  rw [List.getElem?_append_right (Nat.le_refl _)]
  simp

/-- C1: Last-match-wins resolution: for every rule set and path,
`OwnershipIndex.match` collects every rule whose matcher matches the path
into the candidate list in rule-set order, and `chosen` is the last
candidate; in particular, given rules `*.py -> core` then
`src/** -> platform` in that order, `match("src/main.py")` yields
`chosen.service == "platform"` and exactly 2 candidates. -/
theorem C1_last_match_wins :
    (∀ (rules : List Rule) (path : Str),
        (indexMatch rules path).ruleMatches
            = rules.filter (fun r => r.compiled.matches path) ∧
        (indexMatch rules path).chosen
            = (rules.filter (fun r => r.compiled.matches path)).getLast?) ∧
    (parseServiceownersText ("*.py core\nsrc/** platform".toList)).map
        (fun rs => ((indexMatch rs ("src/main.py".toList)).service,
                    (indexMatch rs ("src/main.py".toList)).ruleMatches.length))
      = .ok (some ("platform".toList), 2) := by
  refine ⟨fun rules path => ⟨rfl, rfl⟩, ?_⟩
  decide

/-- C10: the `OwnershipIndex` constructor copies the rule list it is given
into a fresh heap cell and the `rules` property returns a fresh copy, so
mutating the caller's list, or a list obtained from the property, never
changes what any subsequent `match` on the index returns: it stays the
match against the contents the constructor saw. -/
theorem C10_index_insulated (h : PyHeap) (argRef : Nat)
    (hv : argRef < h.cells.length) (v : List Rule) (path : Str) :
    ownershipIndexMatch (ownershipIndexInit h argRef).1 (ownershipIndexInit h argRef).2 path
        = indexMatch (heapRead h argRef) path ∧
    ownershipIndexMatch (heapWrite (ownershipIndexInit h argRef).1 argRef v)
        (ownershipIndexInit h argRef).2 path
        = indexMatch (heapRead h argRef) path ∧
    ownershipIndexMatch
        (heapWrite
          (ownershipIndexRules (ownershipIndexInit h argRef).1 (ownershipIndexInit h argRef).2).1
          (ownershipIndexRules (ownershipIndexInit h argRef).1 (ownershipIndexInit h argRef).2).2
          v)
        (ownershipIndexInit h argRef).2 path
        = indexMatch (heapRead h argRef) path := by
  have hne : argRef ≠ h.cells.length := Nat.ne_of_lt hv
  have hne2 : ∀ x : List Rule, (h.cells ++ [x]).length ≠ h.cells.length := by
    intro x; simp
  refine ⟨?_, ?_, ?_⟩
  · simp only [ownershipIndexMatch, ownershipIndexInit, heapAlloc, heapRead,
      List.get?_eq_getElem?, getElemAppendCons, Option.getD_some]
  · simp only [ownershipIndexMatch, ownershipIndexInit, heapAlloc, heapRead, heapWrite,
      List.get?_eq_getElem?]
    rw [List.getElem?_set_ne hne, getElemAppendCons, Option.getD_some]
  · simp only [ownershipIndexMatch, ownershipIndexInit, ownershipIndexRules, heapAlloc,
      heapRead, heapWrite, List.get?_eq_getElem?, getElemAppendCons, Option.getD_some]
    rw [List.getElem?_set_ne (hne2 _), List.append_assoc, List.singleton_append,
      getElemAppendCons, Option.getD_some]

/-- C10 witness: the theorem applied to a one-cell heap. -/
theorem C10_index_insulated_witness :
    (0 < (PyHeap.mk [[]]).cells.length) ∧
    (ownershipIndexMatch (ownershipIndexInit ⟨[[]]⟩ 0).1 (ownershipIndexInit ⟨[[]]⟩ 0).2 []
        = indexMatch (heapRead ⟨[[]]⟩ 0) [] ∧
     ownershipIndexMatch (heapWrite (ownershipIndexInit ⟨[[]]⟩ 0).1 0 [])
        (ownershipIndexInit ⟨[[]]⟩ 0).2 []
        = indexMatch (heapRead ⟨[[]]⟩ 0) [] ∧
     ownershipIndexMatch
        (heapWrite
          (ownershipIndexRules (ownershipIndexInit ⟨[[]]⟩ 0).1 (ownershipIndexInit ⟨[[]]⟩ 0).2).1
          (ownershipIndexRules (ownershipIndexInit ⟨[[]]⟩ 0).1 (ownershipIndexInit ⟨[[]]⟩ 0).2).2
          [])
        (ownershipIndexInit ⟨[[]]⟩ 0).2 []
        = indexMatch (heapRead ⟨[[]]⟩ 0) []) :=
  ⟨by decide, C10_index_insulated ⟨[[]]⟩ 0 (by decide) [] []⟩

/-- C6 counterexample: requesting `check_matches` without a `repo_root`
does not propagate an error out of `lint_rules`; the call returns normally
with a single ERROR-severity `GIT_REQUIRED` issue inside the result. -/
theorem C6_counterexample :
    lintRules [] [] false true false none =
      { issues := [{ severity := "ERROR".toList, code := "GIT_REQUIRED".toList,
                     message := "--check-matches requires repo_root (git repo).".toList,
                     file := none, line := none, hint := none }] } := by
  decide

/-- C6 (amended): `lint_rules` never raises at all — it has no raise site,
so data-quality problems and caller misuse alike are reported as Issues in
the returned result; requesting `check_matches` or `check_overlaps`
without a `repo_root` yields an ERROR-severity `GIT_REQUIRED` issue in the
returned `LintResult` instead of a propagated error. -/
theorem C6_misuse_reported_not_raised (rules : List Rule)
    (services : List (Str × Service)) (strict cm co : Bool)
    (hreq : cm = true ∨ co = true) :
    ∃ i ∈ (lintRules rules services strict cm co none).issues,
      i.code = "GIT_REQUIRED".toList ∧ i.severity = "ERROR".toList := by
  rcases hreq with h | h <;> subst h
  · refine ⟨gitRequiredIssue ("--check-matches requires repo_root (git repo).".toList),
      ?_, rfl, rfl⟩
    simp [lintRules, lintCheckMatches, List.mem_append, gitRequiredIssue]
  · refine ⟨gitRequiredIssue ("--check-overlaps requires repo_root (git repo).".toList),
      ?_, rfl, rfl⟩
    simp [lintRules, lintCheckOverlaps, List.mem_append, gitRequiredIssue]

/-- C6 witness: the amended theorem applied with both opt-in flags on and
no `repo_root`. -/
theorem C6_misuse_reported_not_raised_witness :
    (true = true ∨ true = true) ∧
    ∃ i ∈ (lintRules [] [] false true true none).issues,
      i.code = "GIT_REQUIRED".toList ∧ i.severity = "ERROR".toList :=
  ⟨Or.inl rfl, C6_misuse_reported_not_raised [] [] false true true (Or.inl rfl)⟩

/-! Claim C4: the duplicate-pattern lint check. -/

/-- Specification-side reading of the duplicate check: a rule conflicts
when an earlier rule has the same pattern and the first such rule maps it
to a different service. -/
def dupConflicts (hist : List Rule) (r : Rule) : Bool :=
  match hist.find? (fun hh => hh.pattern == r.pattern) with
  | some f => f.service ≠ r.service
  | none => false

/-- Specification-side list of conflicting occurrences: one entry per rule
whose service differs from the service of the first rule with the same
pattern. -/
def dupViolations : List Rule → List Rule → List Rule
  | _, [] => []
  | hist, r :: rest =>
    (if dupConflicts hist r then [r] else []) ++ dupViolations (hist ++ [r]) rest

/-- Lookup after a dict assignment. -/
theorem alGet_alSet {α : Type} (d : List (Str × α)) (k : Str) (v : α) (q : Str) :
    alGet (alSet d k v) q = if q = k then some v else alGet d q := by
  induction d with
  | nil =>
    by_cases h : q = k
    · simp [alGet, alSet, h]
    · have h' : ¬(k = q) := fun hh => h hh.symm
      simp [alGet, alSet, h, h']
  | cons kv rest ih =>
    by_cases h1 : kv.1 = k
    · by_cases h2 : q = k
      · simp [alGet, alSet, h1, h2, h1.trans h2.symm]
      · have h3 : ¬(kv.1 = q) := fun hh => h2 ((hh.symm.trans h1))
        have h4 : ¬(k = q) := fun hh => h2 hh.symm
        simp [alGet, alSet, h1, h2, h3, h4]
    · by_cases h3 : kv.1 = q
      · have h2 : ¬(q = k) := fun hh => h1 (h3.trans hh)
        simp [alGet, alSet, h1, h2, h3]
      · simp [alGet, alSet, h1, h3, ih]

/-- Finding the just-appended rule. -/
theorem find_singleton_pattern (r : Rule) (p : Str) :
    ([r].find? (fun hh => hh.pattern == p))
      = if r.pattern = p then some r else none := by
  by_cases h : r.pattern = p
  · have ht : (r.pattern == p) = true := by simp [h]
    simp [List.find?, ht, h]
  · have hf : (r.pattern == p) = false := by simp [beq_eq_false_iff_ne, h]
    simp [List.find?, hf, h]

/-- Extending the history by the processed rule preserves the `seen`
invariant when the rule is stored (first occurrence, or same service as
the first occurrence). -/
theorem dupInvStep (seen : List (Str × Rule)) (hist : List Rule) (r : Rule)
    (hinv : ∀ p, (alGet seen p).map Rule.service
        = (hist.find? (fun hh => hh.pattern == p)).map Rule.service)
    (hfs : (hist.find? (fun hh => hh.pattern == r.pattern)).map Rule.service = none ∨
           (hist.find? (fun hh => hh.pattern == r.pattern)).map Rule.service
             = some r.service) :
    ∀ p, (alGet (alSet seen r.pattern r) p).map Rule.service
        = ((hist ++ [r]).find? (fun hh => hh.pattern == p)).map Rule.service := by
  intro p
  rw [alGet_alSet, List.find?_append, find_singleton_pattern]
  by_cases hpq : p = r.pattern
  · subst hpq
    rw [if_pos rfl, if_pos rfl]
    rcases hfs with hfs | hfs
    · rw [Option.map_eq_none'] at hfs
      rw [hfs]
      simp
    · cases hfind : hist.find? (fun hh => hh.pattern == r.pattern) with
      | none => rw [hfind] at hfs; simp at hfs
      | some f =>
        rw [hfind] at hfs
        simp at hfs
        simp [hfs]
  · rw [if_neg hpq, if_neg (fun hh => hpq hh.symm)]
    rw [hinv p]
    simp

/-- Extending the history preserves the invariant when the rule conflicts
(the `seen` dict is left unchanged by the source in that case). -/
theorem dupInvStepConflict (seen : List (Str × Rule)) (hist : List Rule) (r : Rule)
    (hinv : ∀ p, (alGet seen p).map Rule.service
        = (hist.find? (fun hh => hh.pattern == p)).map Rule.service)
    (hsome : (hist.find? (fun hh => hh.pattern == r.pattern)).isSome) :
    ∀ p, (alGet seen p).map Rule.service
        = ((hist ++ [r]).find? (fun hh => hh.pattern == p)).map Rule.service := by
  intro p
  rw [List.find?_append, find_singleton_pattern]
  cases hfind : hist.find? (fun hh => hh.pattern == p) with
  | none =>
    have h1 := hinv p
    rw [hfind] at h1
    rw [h1]
    have hpq : ¬(r.pattern = p) := by
      intro hh
      rw [hh, hfind] at hsome
      simp at hsome
    rw [if_neg hpq]
    simp
  | some f =>
    have h1 := hinv p
    rw [hfind] at h1
    rw [h1]
    simp

/-- The duplicate pass emits exactly one issue per conflicting later
occurrence, where "conflicting" compares against the first rule of the
same pattern. -/
theorem lintDupsGo_length (strict : Bool) (rs : List Rule) :
    ∀ (seen : List (Str × Rule)) (hist : List Rule),
      (∀ p, (alGet seen p).map Rule.service
          = (hist.find? (fun hh => hh.pattern == p)).map Rule.service) →
      (lintDupsGo strict rs seen).length = (dupViolations hist rs).length := by
  induction rs with
  | nil => intro seen hist _; simp [lintDupsGo, dupViolations]
  | cons r rest ih =>
    intro seen hist hinv
    have hp := hinv r.pattern
    cases hseen : alGet seen r.pattern with
    | none =>
      have hfind : hist.find? (fun hh => hh.pattern == r.pattern) = none := by
        rw [hseen] at hp
        simpa using hp.symm
      have hconf : dupConflicts hist r = false := by
        simp [dupConflicts, hfind]
      simp only [lintDupsGo, dupViolations, hseen, hconf, Bool.false_eq_true, if_false,
        List.nil_append]
      exact ih _ _ (dupInvStep seen hist r hinv (by rw [hfind]; exact Or.inl rfl))
    | some prev =>
      rw [hseen] at hp
      cases hfind : hist.find? (fun hh => hh.pattern == r.pattern) with
      | none => rw [hfind] at hp; simp at hp
      | some f =>
        rw [hfind] at hp
        simp at hp
        by_cases hsv : prev.service = r.service
        · have hconf : dupConflicts hist r = false := by
            simp [dupConflicts, hfind, ← hp, hsv]
          simp only [lintDupsGo, dupViolations, hseen, hconf, Bool.false_eq_true, if_false,
            List.nil_append]
          rw [if_neg (fun hcc => hcc hsv)]
          exact ih _ _ (dupInvStep seen hist r hinv (by rw [hfind]; simp [← hp, hsv]))
        · have hconf : dupConflicts hist r = true := by
            simp [dupConflicts, hfind, ← hp, hsv]
          simp only [lintDupsGo, dupViolations, hseen, hconf, if_true,
            List.singleton_append]
          rw [if_pos hsv]
          simp only [List.length_cons]
          rw [ih seen (hist ++ [r])
            (dupInvStepConflict seen hist r hinv (by rw [hfind]; simp))]

/-- Every issue the duplicate pass emits is a `dupIssue`. -/
theorem lintDupsGo_shape (strict : Bool) (rs : List Rule) :
    ∀ (seen : List (Str × Rule)), ∀ i ∈ lintDupsGo strict rs seen,
      ∃ prev r, i = dupIssue strict prev r := by
  induction rs with
  | nil => intro seen i hi; simp [lintDupsGo] at hi
  | cons r rest ih =>
    intro seen i hi
    cases hseen : alGet seen r.pattern with
    | none =>
      simp only [lintDupsGo, hseen] at hi
      exact ih _ i hi
    | some prev =>
      simp only [lintDupsGo, hseen] at hi
      by_cases hsv : prev.service = r.service
      · rw [if_neg (fun hcc => hcc hsv)] at hi
        exact ih _ i hi
      · rw [if_pos hsv] at hi
        rcases List.mem_cons.1 hi with hi | hi
        · exact ⟨prev, r, hi⟩
        · exact ih _ i hi

/-- C4 counterexample: with the three rules `src/** -> api`,
`src/** -> web`, `src/** -> gw` there is exactly one distinct raw pattern
appearing more than once with a different service, yet the linter emits
two `DUPLICATE_PATTERN` issues, not exactly one. -/
theorem C4_counterexample :
    (parseServiceownersText ("src/** api\nsrc/** web\nsrc/** gw".toList)).map (fun rs =>
      ((lintRules rs [] false false false none).issues.filter
        (fun i => i.code == "DUPLICATE_PATTERN".toList)).length) = .ok 2 := by
  decide

/-- C4 (amended): the duplicate check emits exactly one WARN issue (ERROR
when strict) per later rule whose service differs from the service of the
first retained rule with the same pattern; in particular a pattern
occurring exactly twice with differing services yields exactly one issue,
and the same pattern mapped to the same service twice is never flagged. -/
theorem C4_duplicate_pattern (rules : List Rule) (strict : Bool) :
    ((lintRules rules [] strict false false none).issues.length
        = (dupViolations [] rules).length) ∧
    (∀ i ∈ (lintRules rules [] strict false false none).issues,
        i.code = "DUPLICATE_PATTERN".toList ∧ i.severity = warnSeverity strict) ∧
    ((parseServiceownersText ("src/** api\nsrc/** web".toList)).map (fun rs =>
        ((lintRules rs [] false false false none).issues.filter
          (fun i => i.code == "DUPLICATE_PATTERN".toList)).length) = .ok 1) ∧
    ((parseServiceownersText ("src/** api\nsrc/** api".toList)).map (fun rs =>
        (lintRules rs [] false false false none).issues.length) = .ok 0) := by
  have hbase : lintRules rules [] strict false false none
      = { issues := lintDupsGo strict rules [] } := by
    simp [lintRules]
  refine ⟨?_, ?_, by decide, by decide⟩
  · rw [hbase]
    exact lintDupsGo_length strict rules [] [] (fun p => by simp [alGet, List.find?])
  · rw [hbase]
    intro i hi
    obtain ⟨prev, r, rfl⟩ := lintDupsGo_shape strict rules [] i hi
    exact ⟨rfl, rfl⟩

/-- C4 witness: the amended theorem at a concrete rule set. -/
theorem C4_duplicate_pattern_witness :
    ((lintRules [] [] false false false none).issues.length
        = (dupViolations [] []).length) ∧
    (∀ i ∈ (lintRules [] [] false false false none).issues,
        i.code = "DUPLICATE_PATTERN".toList ∧ i.severity = warnSeverity false) ∧
    ((parseServiceownersText ("src/** api\nsrc/** web".toList)).map (fun rs =>
        ((lintRules rs [] false false false none).issues.filter
          (fun i => i.code == "DUPLICATE_PATTERN".toList)).length) = .ok 1) ∧
    ((parseServiceownersText ("src/** api\nsrc/** api".toList)).map (fun rs =>
        (lintRules rs [] false false false none).issues.length) = .ok 0) :=
  C4_duplicate_pattern [] false

/-! Claim C7: the error conditions of `compile_pattern`. -/

/-- Normalization fails exactly on a blank pattern or one that reduces to
the repository root. -/
theorem normalize_error_iff (p : Str) :
    (∃ e, normalizePattern p = .error e) ↔
      (pystrip p = [] ∨
       stripLeadSlash (stripDotSlash (backslashToSlash (pystrip p))) = []) := by
  by_cases h1 : pystrip p = []
  · simp [normalizePattern, h1]
  · by_cases h2 : stripLeadSlash (stripDotSlash (backslashToSlash (pystrip p))) = []
    · simp [normalizePattern, h1, h2]
    · simp [normalizePattern, h1, h2]
      intro x
      split <;> simp

/-! Claim C3: the `**` token. -/

/-- Dropping a prefix never lengthens a list. -/
theorem dropWhile_length_le {α : Type} (p : α → Bool) (l : List α) :
    (l.dropWhile p).length ≤ l.length := by
  induction l with
  | nil => simp [List.dropWhile]
  | cons a l ih =>
    simp only [List.dropWhile, List.length_cons]
    split
    · omega
    · simp

/-- A nonempty `dropWhile` tail is strictly shorter than the input. -/
theorem dropWhile_cons_length {α : Type} (q : α → Bool) (l : List α) (x : α) (t : List α)
    (h : l.dropWhile q = x :: t) : t.length < l.length := by
  have h1 := dropWhile_length_le q l
  rw [h] at h1
  simp only [List.length_cons] at h1
  omega

/-- The remainder returned by the class scan is strictly shorter than its
input. -/
theorem scanClass_rem_length (rest inner rem : Str)
    (h : scanClass rest = some (inner, rem)) : rem.length < rest.length := by
  cases rest with
  | nil => simp [scanClass] at h
  | cons c r =>
    simp only [scanClass] at h
    by_cases hc : (c = '!' || c = '^') = true
    · rw [if_pos hc] at h
      cases hd : r.dropWhile (fun x => x ≠ ']') with
      | nil => rw [hd] at h; simp at h
      | cons d t =>
        rw [hd] at h
        simp only [Option.some.injEq, Prod.mk.injEq] at h
        have := dropWhile_cons_length _ r d t hd
        rw [← h.2]
        simp only [List.length_cons]
        omega
    · rw [if_neg (by simpa using hc)] at h
      cases hd : (c :: r).dropWhile (fun x => x ≠ ']') with
      | nil => rw [hd] at h; simp at h
      | cons d t =>
        rw [hd] at h
        simp only [Option.some.injEq, Prod.mk.injEq] at h
        have := dropWhile_cons_length _ (c :: r) d t hd
        rw [← h.2]
        omega

/-- One unfolding step of the tokenizer. -/
theorem globToksF_succ_cons (fuel : Nat) (c : Char) (rest : Str) :
    globToksF (fuel + 1) (c :: rest) =
      if c = '*' then
        if rest.head? = some '*' then
          .star2 :: globToksF fuel (rest.dropWhile (fun x => x = '*'))
        else .star1 :: globToksF fuel rest
      else if c = '?' then .qmark :: globToksF fuel rest
      else if c = '[' then
        match scanClass rest with
        | some (inner, rem) => .cls (convertInner inner) :: globToksF fuel rem
        | none => .lit '[' :: globToksF fuel rest
      else .lit c :: globToksF fuel rest := rfl

/-- The tokenizer does not depend on the fuel, as long as the fuel covers
the input length. -/
theorem globToksF_congr : ∀ (f₁ f₂ : Nat) (s : Str),
    s.length ≤ f₁ → s.length ≤ f₂ → globToksF f₁ s = globToksF f₂ s := by
  intro f₁
  induction f₁ with
  | zero =>
    intro f₂ s h1 _
    have hs : s = [] := List.length_eq_zero.1 (Nat.le_antisymm h1 (Nat.zero_le _))
    subst hs
    cases f₂ <;> simp [globToksF]
  | succ f ih =>
    intro f₂ s h1 h2
    cases s with
    | nil => cases f₂ <;> simp [globToksF]
    | cons c rest =>
      cases f₂ with
      | zero => simp only [List.length_cons] at h2; omega
      | succ f₂' =>
        simp only [List.length_cons, Nat.add_le_add_iff_right] at h1 h2
        rw [globToksF_succ_cons, globToksF_succ_cons]
        by_cases hstar : c = '*'
        · rw [if_pos hstar, if_pos hstar]
          by_cases hh : rest.head? = some '*'
          · rw [if_pos hh, if_pos hh]
            have hb := dropWhile_length_le (fun x => x = '*') rest
            rw [ih f₂' _ (by omega) (by omega)]
          · rw [if_neg hh, if_neg hh, ih f₂' rest h1 h2]
        · rw [if_neg hstar, if_neg hstar]
          by_cases hq : c = '?'
          · rw [if_pos hq, if_pos hq, ih f₂' rest h1 h2]
          · rw [if_neg hq, if_neg hq]
            by_cases hbr : c = '['
            · rw [if_pos hbr, if_pos hbr]
              cases hscan : scanClass rest with
              | none =>
                show Tok.lit '[' :: globToksF f rest = Tok.lit '[' :: globToksF f₂' rest
                rw [ih f₂' rest h1 h2]
              | some pr =>
                obtain ⟨inner, rem⟩ := pr
                have hlt := scanClass_rem_length rest inner rem hscan
                show Tok.cls (convertInner inner) :: globToksF f rem
                    = Tok.cls (convertInner inner) :: globToksF f₂' rem
                rw [ih f₂' rem (by omega) (by omega)]
            · rw [if_neg hbr, if_neg hbr, ih f₂' rest h1 h2]

/-- `globToksF` at exact fuel equals `globToks`. -/
theorem globToksF_eq_globToks (f : Nat) (s : Str) (h : s.length ≤ f) :
    globToksF f s = globToks s :=
  globToksF_congr f s.length s h (Nat.le_refl _)

/-- Dropping a run of satisfying elements from the front. -/
theorem dropWhile_replicate_append {α : Type} (p : α → Bool) (n : Nat) (a : α)
    (l : List α) (ha : p a = true) :
    (List.replicate n a ++ l).dropWhile p = l.dropWhile p := by
  induction n with
  | zero => simp
  | succ n ih =>
    rw [List.replicate_succ, List.cons_append, List.dropWhile_cons_of_pos ha]
    exact ih

/-- Membership in the star continuation candidates: exactly the suffixes
obtained by deleting a prefix of characters satisfying `p`. -/
theorem dropCandidates_mem (p : Char → Bool) : ∀ (s s' : Str),
    s' ∈ dropCandidates p s ↔ ∃ pre, s = pre ++ s' ∧ ∀ c ∈ pre, p c = true := by
  intro s
  induction s with
  | nil =>
    intro s'
    constructor
    · intro h
      simp [dropCandidates] at h
      subst h
      exact ⟨[], rfl, by simp⟩
    · rintro ⟨pre, hs, _⟩
      rcases List.append_eq_nil.1 hs.symm with ⟨rfl, rfl⟩
      simp [dropCandidates]
  | cons c t ih =>
    intro s'
    constructor
    · intro h
      simp only [dropCandidates, List.mem_cons] at h
      rcases h with rfl | h
      · exact ⟨[], rfl, by simp⟩
      · by_cases hp : p c = true
        · rw [if_pos hp] at h
          obtain ⟨pre, rfl, hall⟩ := (ih s').1 h
          exact ⟨c :: pre, rfl, by
            intro x hx
            rcases List.mem_cons.1 hx with rfl | hx
            · exact hp
            · exact hall x hx⟩
        · rw [if_neg hp] at h
          simp at h
    · rintro ⟨pre, hs, hall⟩
      cases pre with
      | nil =>
        simp only [List.nil_append] at hs
        subst hs
        simp [dropCandidates]
      | cons c₀ pre' =>
        simp only [List.cons_append, List.cons.injEq] at hs
        obtain ⟨rfl, ht⟩ := hs
        have hp : p c = true := hall c (by simp)
        simp only [dropCandidates, List.mem_cons, if_pos hp]
        refine Or.inr ?_
        exact (ih s').2 ⟨pre', ht, fun x hx => hall x (by simp [hx])⟩

/-- The `.*` produced for `**` tries exactly the splits into a
newline-free consumed part and a remainder for the rest of the regex. -/
theorem matchToks_star2_iff (ts : List Tok) (s : Str) :
    matchToks (.star2 :: ts) s = true ↔
      ∃ s₁ s₂, s = s₁ ++ s₂ ∧ (∀ c ∈ s₁, c ≠ '\n') ∧ matchToks ts s₂ = true := by
  simp only [matchToks, List.any_eq_true]
  constructor
  · rintro ⟨s', hmem, hm⟩
    obtain ⟨pre, rfl, hall⟩ := (dropCandidates_mem _ s s').1 hmem
    exact ⟨pre, s', rfl, fun c hc => by simpa using hall c hc, hm⟩
  · rintro ⟨s₁, s₂, rfl, hnl, hm⟩
    exact ⟨s₂, (dropCandidates_mem _ _ s₂).2
      ⟨s₁, rfl, fun c hc => by simpa using hnl c hc⟩, hm⟩

/-- A run of two or more stars is tokenized as a single `star2` token. -/
theorem globToks_star_run (k : Nat) (rest : Str) (hk : 2 ≤ k)
    (hh : rest.head? ≠ some '*') :
    globToks (List.replicate k '*' ++ rest) = .star2 :: globToks rest := by
  obtain ⟨k', rfl⟩ : ∃ k', k = k' + 2 := ⟨k - 2, by omega⟩
  have hs : List.replicate (k' + 2) '*' ++ rest
      = '*' :: (List.replicate (k' + 1) '*' ++ rest) := by
    rw [List.replicate_succ, List.cons_append]
  have hdrop : (List.replicate (k' + 1) '*' ++ rest).dropWhile (fun x => x = '*')
      = rest := by
    rw [dropWhile_replicate_append _ _ _ _ (by simp)]
    cases rest with
    | nil => simp [List.dropWhile]
    | cons c t =>
      have hc : ¬(c = '*') := by
        intro hcc
        exact hh (by simp [hcc])
      rw [List.dropWhile_cons_of_neg (by simpa using hc)]
  have hhead : (List.replicate (k' + 1) '*' ++ rest).head? = some '*' := by
    rw [List.replicate_succ, List.cons_append]
    simp
  unfold globToks
  rw [hs]
  rw [show ('*' :: (List.replicate (k' + 1) '*' ++ rest)).length
      = (List.replicate (k' + 1) '*' ++ rest).length + 1 from by simp]
  rw [globToksF_succ_cons, if_pos rfl, if_pos hhead, hdrop]
  rw [globToksF_congr _ rest.length rest (by simp) (Nat.le_refl _)]

/-- C3 counterexample: the translator keeps the slashes around `**`
required, so `a/**/b` does not match `a/b` (it does match `a/x/b`), and
`**/foo` does not match root-level `foo` (it does match `x/foo`). -/
theorem C3_counterexample :
    ((compilePattern ("a/**/b".toList)).map (fun cp =>
        (cp.matches ("a/b".toList), cp.matches ("a/x/b".toList))) = .ok (false, true)) ∧
    ((compilePattern ("**/foo".toList)).map (fun cp =>
        (cp.matches ("foo".toList), cp.matches ("x/foo".toList))) = .ok (false, true)) := by
  constructor
  · decide
  · decide

/-- C3 (amended): a run of two or more consecutive `*` collapses into one
`**` token; that token matches any run of characters, crossing `/`
freely, including the empty run — but literal slashes adjacent to the
token remain required, so `a/**` matches `a/b/c` and `a/` (zero
characters), and `a/**/b` matches `a//b` (zero characters between the two
mandatory slashes). -/
theorem C3_doublestar (k : Nat) (rest : Str) (ts : List Tok) (s : Str)
    (hk : 2 ≤ k) (hh : rest.head? ≠ some '*') :
    globToks (List.replicate k '*' ++ rest) = .star2 :: globToks rest ∧
    (matchToks (.star2 :: ts) s = true ↔
      ∃ s₁ s₂, s = s₁ ++ s₂ ∧ (∀ c ∈ s₁, c ≠ '\n') ∧ matchToks ts s₂ = true) ∧
    ((compilePattern ("a/**".toList)).map (fun cp =>
        (cp.matches ("a/b/c".toList), cp.matches ("a/".toList))) = .ok (true, true)) ∧
    ((compilePattern ("a/**/b".toList)).map (fun cp =>
        cp.matches ("a//b".toList)) = .ok true) :=
  ⟨globToks_star_run k rest hk hh, matchToks_star2_iff ts s, by decide, by decide⟩

/-- C3 witness: the amended theorem at a concrete star run and a concrete
match. -/
theorem C3_doublestar_witness :
    2 ≤ 3 ∧ ("a".toList.head? ≠ some '*') ∧
    (globToks (List.replicate 3 '*' ++ "a".toList) = .star2 :: globToks "a".toList ∧
     (matchToks (.star2 :: []) ("x/y".toList) = true ↔
       ∃ s₁ s₂, "x/y".toList = s₁ ++ s₂ ∧ (∀ c ∈ s₁, c ≠ '\n') ∧ matchToks [] s₂ = true) ∧
     ((compilePattern ("a/**".toList)).map (fun cp =>
         (cp.matches ("a/b/c".toList), cp.matches ("a/".toList))) = .ok (true, true)) ∧
     ((compilePattern ("a/**/b".toList)).map (fun cp =>
         cp.matches ("a//b".toList)) = .ok true)) :=
  ⟨by decide, by decide, C3_doublestar 3 ("a".toList) [] ("x/y".toList) (by decide) (by decide)⟩

/-! Claim C7: the error conditions of `compile_pattern`.  The engine's
parse of the emitted body (`sreParseF`) is related to the translator's
token list: on self-contained tokens it replays `tokToR` token by token,
so compile failure is exactly a class body `parseClassItems` rejects —
while a hanging (empty-bodied) class is decided globally, by whether a
later bare `]` closes its set. -/

/-- `classBody` on a marked body. -/
theorem classBody_caret (r : Str) : classBody ('^' :: r) = (true, r) := rfl

/-- `classBody` on an unmarked body. -/
theorem classBody_plain (i0 : Char) (r : Str) (h : i0 ≠ '^') :
    classBody (i0 :: r) = (false, i0 :: r) := by
  unfold classBody
  split
  · rename_i heq
    injection heq with h1 _
    exact absurd h1 h
  · rfl

/-- `parseClassItems` on a single unescaped character. -/
theorem pci_single (a : Char) (ha : a ≠ '\\') :
    parseClassItems [a] = some [ClsItem.one a] := by
  conv_lhs => unfold parseClassItems
  split
  · rename_i heq; exact absurd heq (by simp)
  · rename_i heq
    injection heq with h1 _
    exact absurd h1 ha
  · rename_i heq
    injection heq with _ h2
    exact absurd h2 (by simp)
  · rename_i g heq; exact absurd heq (by simp)
  · rename_i g heq; exact absurd heq (by simp)
  · rename_i g1 g2 g3 g4 heq
    injection heq with h1 h2
    subst h1
    subst h2
    rfl

/-- `parseClassItems` on a character and a trailing literal dash. -/
theorem pci_pair_dash (a : Char) (ha : a ≠ '\\') :
    parseClassItems [a, '-'] = some [ClsItem.one a, ClsItem.one '-'] := by
  conv_lhs => unfold parseClassItems
  split
  · rename_i heq; exact absurd heq (by simp)
  · rename_i heq; exact absurd heq (by simp)
  · rename_i heq
    injection heq with h1 _
    exact absurd h1 ha
  · rename_i g heq
    injection heq with h1 _
    subst h1
    rfl
  · rename_i g heq; exact absurd heq (by simp)
  · rename_i g1 g2 g3 g4 heq
    injection heq with h1 h2
    exact absurd h2.symm g3

/-- `parseClassItems` on a leading range. -/
theorem pci_range (a b : Char) (bt : Str) (ha : a ≠ '\\') :
    parseClassItems (a :: '-' :: b :: bt)
      = if a ≤ b then (parseClassItems bt).map (fun its => ClsItem.range a b :: its)
        else none := by
  conv_lhs => unfold parseClassItems
  split
  · rename_i heq; exact absurd heq (by simp)
  · rename_i heq; exact absurd heq (by simp)
  · rename_i heq
    injection heq with h1 _
    exact absurd h1 ha
  · rename_i g heq; exact absurd heq (by simp)
  · rename_i g heq
    injection heq with h1 h2
    injection h2 with _ h3
    injection h3 with h4 h5
    subst h1
    subst h4
    subst h5
    rfl
  · rename_i g1 g2 g3 g4 heq
    injection heq with h1 h2
    exact absurd (g4 b bt h2.symm) (by simp)

/-- `parseClassItems` on a leading non-range character. -/
theorem pci_cons (a d : Char) (bt : Str) (ha : a ≠ '\\') (hd : d ≠ '-') :
    parseClassItems (a :: d :: bt)
      = (parseClassItems (d :: bt)).map (fun its => ClsItem.one a :: its) := by
  conv_lhs => unfold parseClassItems
  split
  · rename_i heq; exact absurd heq (by simp)
  · rename_i heq; exact absurd heq (by simp)
  · rename_i heq
    injection heq with h1 _
    exact absurd h1 ha
  · rename_i g heq
    injection heq with h1 h2
    injection h2 with h3 _
    exact absurd h3 hd
  · rename_i g heq
    injection heq with h1 h2
    injection h2 with h3 _
    exact absurd h3 hd
  · rename_i g1 g2 g3 g4 heq
    injection heq with h1 h2
    subst h1
    subst h2
    rfl

/-- An unescaped character is its own set item. -/
theorem sreSetCode1_plain (c : Char) (rest : Str) (h : c ≠ '\\') :
    sreSetCode1 c rest = some (c, rest) := by
  simp [sreSetCode1, h]

/-- The set scan closes on a bare `]` once an item was read. -/
theorem sreSetF_close (fuel : Nat) (rest : Str) :
    sreSetF (fuel + 1) true (']' :: rest) = some ([], rest) := by
  simp only [sreSetF]
  rw [if_pos (by simp)]

/-- One plain item step of the set scan. -/
theorem sreSetF_step (fuel : Nat) (b : Bool) (c : Char) (rest : Str) (c1 : Char) (r2 : Str)
    (hskip : ¬(((c = ']') && b) = true))
    (hcode : sreSetCode1 c rest = some (c1, r2))
    (hnd : r2.head? ≠ some '-') :
    sreSetF (fuel + 1) b (c :: rest)
      = (sreSetF fuel true r2).map (fun p => (ClsItem.one c1 :: p.1, p.2)) := by
  simp only [sreSetF, hcode]
  rw [if_neg hskip, if_neg hnd]

/-- A dash right before the closing `]` is a literal and closes the set. -/
theorem sreSetF_step_dashEnd (fuel : Nat) (b : Bool) (c : Char) (rest : Str)
    (c1 : Char) (r4 : Str)
    (hskip : ¬(((c = ']') && b) = true))
    (hcode : sreSetCode1 c rest = some (c1, '-' :: ']' :: r4)) :
    sreSetF (fuel + 1) b (c :: rest) = some ([ClsItem.one c1, ClsItem.one '-'], r4) := by
  simp only [sreSetF, hcode]
  rw [if_neg hskip]
  simp

/-- One range step of the set scan. -/
theorem sreSetF_step_range (fuel : Nat) (b : Bool) (c : Char) (rest : Str)
    (c1 d : Char) (r4 : Str) (c2 : Char) (r5 : Str)
    (hskip : ¬(((c = ']') && b) = true))
    (hcode : sreSetCode1 c rest = some (c1, '-' :: d :: r4))
    (hd : d ≠ ']')
    (hcode2 : sreSetCode1 d r4 = some (c2, r5)) :
    sreSetF (fuel + 1) b (c :: rest)
      = if c1 ≤ c2 then (sreSetF fuel true r5).map (fun p => (ClsItem.range c1 c2 :: p.1, p.2))
        else none := by
  simp only [sreSetF, hcode]
  rw [if_neg hskip]
  simp [hd, hcode2]

/-- The `.` atom. -/
theorem sreAtom_dot (rest : Str) : sreAtom '.' rest = some (.rdot, rest) := by
  simp [sreAtom]

/-- The escaped-literal atom. -/
theorem sreAtom_esc (d : Char) (r2 : Str) : sreAtom '\\' (d :: r2) = some (.rch d, r2) := by
  simp [sreAtom]

/-- A character that is no metacharacter is a literal atom. -/
theorem sreAtom_plain (c : Char) (rest : Str) (h1 : c ≠ '[') (h2 : c ≠ '\\')
    (h3 : c ≠ '.') (h4 : c ≠ '*') : sreAtom c rest = some (.rch c, rest) := by
  simp [sreAtom, h1, h2, h3, h4]

/-- A `[` atom with a succeeding set scan. -/
theorem sreAtom_cls (rest : Str) (neg : Bool) (items : List ClsItem) (rem : Str)
    (h : sreSetStart rest = some (neg, items, rem)) :
    sreAtom '[' rest = some (.rcls neg items, rem) := by
  simp [sreAtom, h]

/-- A `[` atom with a failing set scan. -/
theorem sreAtom_cls_none (rest : Str) (h : sreSetStart rest = none) :
    sreAtom '[' rest = none := by
  simp [sreAtom, h]

/-- The set scan behind a consumed negation marker. -/
theorem sreSetStart_caret (rest : Str) :
    sreSetStart ('^' :: rest)
      = (sreSetF (rest.length + 1) false rest).map (fun p => (true, p.1, p.2)) := by
  simp [sreSetStart]

/-- The set scan with no negation marker. -/
theorem sreSetStart_plain (s : Str) (h : s.head? ≠ some '^') :
    sreSetStart s = (sreSetF (s.length + 1) false s).map (fun p => (false, p.1, p.2)) := by
  simp [sreSetStart, h]

/-- One failing atom step of the body parse. -/
theorem sreParseF_step_none (fuel : Nat) (c : Char) (rest : Str)
    (ha : sreAtom c rest = none) :
    sreParseF (fuel + 1) (c :: rest) = none := by
  simp only [sreParseF, ha]

/-- One unstarred atom step of the body parse. -/
theorem sreParseF_step (fuel : Nat) (c : Char) (rest : Str) (a : RAtom) (r : Str)
    (ha : sreAtom c rest = some (a, r)) (hr : r.head? ≠ some '*') :
    sreParseF (fuel + 1) (c :: rest)
      = (sreParseF fuel r).map (fun ts => (a, false) :: ts) := by
  simp only [sreParseF, ha]
  rw [if_neg hr]

/-- One starred atom step of the body parse. -/
theorem sreParseF_step_star (fuel : Nat) (c : Char) (rest : Str) (a : RAtom) (E : Str)
    (ha : sreAtom c rest = some (a, '*' :: E)) (hE : E.head? ≠ some '*') :
    sreParseF (fuel + 1) (c :: rest)
      = (sreParseF fuel E).map (fun ts => (a, true) :: ts) := by
  simp only [sreParseF, ha]
  rw [if_pos (by simp)]
  simp only [List.tail_cons]
  rw [if_neg hE]

/-- On the emitted text of a class with a nonempty `]`-free, `\`-free body
the set scan replays `parseClassItems` and stops at the closing `]`. -/
theorem sreSetF_spec : ∀ (fuel : Nat) (body rest : Str) (b : Bool),
    body.length < fuel → (']' ∉ body) → ('\\' ∉ body) →
    (b = true ∨ body ≠ []) →
    sreSetF fuel b (body ++ ']' :: rest)
      = (parseClassItems body).map (fun its => (its, rest)) := by
  intro fuel
  induction fuel with
  | zero => intro body rest b h _ _ _; omega
  | succ f ih =>
    intro body rest b hlen hrb hbs hne
    cases body with
    | nil =>
      rcases hne with hb | hne
      · subst hb
        rw [List.nil_append, sreSetF_close]
        rfl
      · exact absurd rfl hne
    | cons a bt =>
      have ha1 : a ≠ ']' := fun h => hrb (h ▸ List.mem_cons_self a bt)
      have ha2 : a ≠ '\\' := fun h => hbs (h ▸ List.mem_cons_self a bt)
      have hrb2 : ']' ∉ bt := fun h => hrb (List.mem_cons_of_mem _ h)
      have hbs2 : '\\' ∉ bt := fun h => hbs (List.mem_cons_of_mem _ h)
      have hskip : ¬(((a = ']') && b) = true) := by simp [ha1]
      simp only [List.length_cons] at hlen
      rw [List.cons_append]
      cases bt with
      | nil =>
        rw [List.nil_append]
        rw [sreSetF_step f b a (']' :: rest) a (']' :: rest) hskip
          (sreSetCode1_plain a _ ha2) (by simp)]
        have h0 := ih [] rest true (by omega) (by simp) (by simp) (Or.inl rfl)
        rw [List.nil_append] at h0
        rw [h0, pci_single a ha2]
        rfl
      | cons d bt2 =>
        have hrb3 : ']' ∉ bt2 := fun h => hrb2 (List.mem_cons_of_mem _ h)
        have hbs3 : '\\' ∉ bt2 := fun h => hbs2 (List.mem_cons_of_mem _ h)
        simp only [List.length_cons] at hlen
        by_cases hd : d = '-'
        · subst hd
          cases bt2 with
          | nil =>
            rw [List.cons_append, List.nil_append]
            rw [sreSetF_step_dashEnd f b a ('-' :: ']' :: rest) a rest hskip
              (sreSetCode1_plain a _ ha2)]
            rw [pci_pair_dash a ha2]
            rfl
          | cons e bt3 =>
            have he1 : e ≠ ']' := fun h => hrb3 (h ▸ List.mem_cons_self e bt3)
            have he2 : e ≠ '\\' := fun h => hbs3 (h ▸ List.mem_cons_self e bt3)
            have hrb4 : ']' ∉ bt3 := fun h => hrb3 (List.mem_cons_of_mem _ h)
            have hbs4 : '\\' ∉ bt3 := fun h => hbs3 (List.mem_cons_of_mem _ h)
            simp only [List.length_cons] at hlen
            rw [List.cons_append, List.cons_append]
            rw [sreSetF_step_range f b a ('-' :: e :: (bt3 ++ ']' :: rest)) a e
              (bt3 ++ ']' :: rest) e (bt3 ++ ']' :: rest) hskip
              (sreSetCode1_plain a _ ha2) he1 (sreSetCode1_plain e _ he2)]
            rw [ih bt3 rest true (by omega) hrb4 hbs4 (Or.inl rfl)]
            rw [pci_range a e bt3 ha2]
            by_cases hle : a ≤ e
            · rw [if_pos hle, if_pos hle]
              rw [Option.map_map, Option.map_map]
              rfl
            · rw [if_neg hle, if_neg hle]
              rfl
        · rw [sreSetF_step f b a (d :: bt2 ++ ']' :: rest) a (d :: bt2 ++ ']' :: rest) hskip
            (sreSetCode1_plain a _ ha2) (by simp [hd])]
          have h0 := ih (d :: bt2) rest true (by simp only [List.length_cons]; omega)
            hrb2 hbs2 (Or.inl (by simp))
          rw [h0, pci_cons a d bt2 ha2 hd]
          rw [Option.map_map, Option.map_map]
          rfl

/-- No emitted token text begins with a bare `*`. -/
theorem emitToks_head_ne_star : ∀ ts : List Tok, (emitToks ts).head? ≠ some '*' := by
  intro ts
  cases ts with
  | nil => simp [emitToks]
  | cons t ts =>
    cases t with
    | star2 => simp [emitToks, emitTok]
    | star1 => simp [emitToks, emitTok]
    | qmark => simp [emitToks, emitTok]
    | cls inner => simp [emitToks, emitTok]
    | lit c =>
      simp only [emitToks, emitTok, reEscapeChar]
      by_cases h : reSpecial c = true
      · rw [if_pos h]
        simp
      · rw [if_neg h]
        simp only [List.cons_append, List.head?_cons, ne_eq, Option.some.injEq]
        intro hc
        subst hc
        exact h rfl

/-- `toksToR` on a convertible head token. -/
theorem toksToR_cons_some (t : Tok) (r : RTok) (ts : List Tok) (h : tokToR t = some r) :
    toksToR (t :: ts) = (toksToR ts).map (fun rs => r :: rs) := by
  simp only [toksToR, h]
  cases toksToR ts <;> rfl

/-- `toksToR` on an unconvertible head token. -/
theorem toksToR_cons_none (t : Tok) (ts : List Tok) (h : tokToR t = none) :
    toksToR (t :: ts) = none := by
  simp only [toksToR, h]

/-- `toksToR` fails exactly when some token fails. -/
theorem toksToR_none_iff : ∀ ts : List Tok,
    toksToR ts = none ↔ ∃ t ∈ ts, tokToR t = none := by
  intro ts
  induction ts with
  | nil => simp [toksToR]
  | cons t ts ih =>
    cases h : tokToR t with
    | none =>
      rw [toksToR_cons_none t ts h]
      simp only [true_iff]
      exact ⟨t, List.mem_cons_self t ts, h⟩
    | some r =>
      rw [toksToR_cons_some t r ts h]
      simp only [Option.map_eq_none', ih, List.mem_cons]
      constructor
      · rintro ⟨x, hx, hn⟩
        exact ⟨x, Or.inr hx, hn⟩
      · rintro ⟨x, hx | hx, hn⟩
        · subst hx
          rw [h] at hn
          exact absurd hn (by simp)
        · exact ⟨x, hx, hn⟩

/-- A token fails to convert exactly when it is a class whose body fails
to parse. -/
theorem tokToR_none_iff (t : Tok) :
    tokToR t = none ↔
      ∃ inner, t = Tok.cls inner ∧ parseClassItems (classBody inner).2 = none := by
  cases t with
  | cls inner =>
    simp only [tokToR, Option.map_eq_none']
    constructor
    · intro h
      exact ⟨inner, rfl, h⟩
    · rintro ⟨inner2, heq, h⟩
      injection heq with heq
      subst heq
      exact h
  | star2 => simp [tokToR]
  | star1 => simp [tokToR]
  | qmark => simp [tokToR]
  | lit c => simp [tokToR]

/-- The engine reads the emitted body of a list of self-contained tokens
token by token: the parse is `tokToR` mapped over the list. -/
theorem sreParse_emit : ∀ (ts : List Tok) (fuel : Nat),
    (emitToks ts).length < fuel →
    (∀ inner, Tok.cls inner ∈ ts → ']' ∉ inner ∧ '\\' ∉ inner ∧ (classBody inner).2 ≠ []) →
    sreParseF fuel (emitToks ts) = toksToR ts := by
  intro ts
  induction ts with
  | nil =>
    intro fuel hlen _
    cases fuel with
    | zero => omega
    | succ f => rfl
  | cons t ts ih =>
    intro fuel hlen hwf
    have hwf2 : ∀ inner, Tok.cls inner ∈ ts →
        ']' ∉ inner ∧ '\\' ∉ inner ∧ (classBody inner).2 ≠ [] :=
      fun inner hm => hwf inner (List.mem_cons_of_mem _ hm)
    have hE := emitToks_head_ne_star ts
    cases t with
    | star2 =>
      rw [show emitToks (Tok.star2 :: ts) = '.' :: '*' :: emitToks ts from rfl] at hlen ⊢
      simp only [List.length_cons] at hlen
      cases fuel with
      | zero => omega
      | succ f =>
        rw [sreParseF_step_star f '.' ('*' :: emitToks ts) RAtom.rdot (emitToks ts)
          (sreAtom_dot _) hE]
        rw [ih f (by omega) hwf2]
        rw [toksToR_cons_some Tok.star2 (RAtom.rdot, true) ts rfl]
    | star1 =>
      rw [show emitToks (Tok.star1 :: ts)
          = '[' :: '^' :: '/' :: ']' :: '*' :: emitToks ts from rfl] at hlen ⊢
      simp only [List.length_cons] at hlen
      cases fuel with
      | zero => omega
      | succ f =>
        have hset : sreSetStart ('^' :: '/' :: ']' :: '*' :: emitToks ts)
            = some (true, [ClsItem.one '/'], '*' :: emitToks ts) := by
          rw [sreSetStart_caret]
          have hspec := sreSetF_spec (('/' :: ']' :: '*' :: emitToks ts).length + 1)
            ['/'] ('*' :: emitToks ts) false
            (by simp only [List.length_cons, List.length_nil]; omega)
            (by decide) (by decide) (Or.inr (by simp))
          rw [show (['/'] ++ ']' :: '*' :: emitToks ts)
              = '/' :: ']' :: '*' :: emitToks ts from rfl] at hspec
          rw [hspec, pci_single '/' (by decide)]
          rfl
        rw [sreParseF_step_star f '[' ('^' :: '/' :: ']' :: '*' :: emitToks ts)
          (RAtom.rcls true [ClsItem.one '/']) (emitToks ts)
          (sreAtom_cls _ _ _ _ hset) hE]
        rw [ih f (by omega) hwf2]
        rw [toksToR_cons_some Tok.star1 (RAtom.rcls true [ClsItem.one '/'], true) ts rfl]
    | qmark =>
      rw [show emitToks (Tok.qmark :: ts)
          = '[' :: '^' :: '/' :: ']' :: emitToks ts from rfl] at hlen ⊢
      simp only [List.length_cons] at hlen
      cases fuel with
      | zero => omega
      | succ f =>
        have hset : sreSetStart ('^' :: '/' :: ']' :: emitToks ts)
            = some (true, [ClsItem.one '/'], emitToks ts) := by
          rw [sreSetStart_caret]
          have hspec := sreSetF_spec (('/' :: ']' :: emitToks ts).length + 1)
            ['/'] (emitToks ts) false
            (by simp only [List.length_cons, List.length_nil]; omega)
            (by decide) (by decide) (Or.inr (by simp))
          rw [show (['/'] ++ ']' :: emitToks ts)
              = '/' :: ']' :: emitToks ts from rfl] at hspec
          rw [hspec, pci_single '/' (by decide)]
          rfl
        rw [sreParseF_step f '[' ('^' :: '/' :: ']' :: emitToks ts)
          (RAtom.rcls true [ClsItem.one '/']) (emitToks ts)
          (sreAtom_cls _ _ _ _ hset) hE]
        rw [ih f (by omega) hwf2]
        rw [toksToR_cons_some Tok.qmark (RAtom.rcls true [ClsItem.one '/'], false) ts rfl]
    | lit c =>
      by_cases hsp : reSpecial c = true
      · rw [show emitToks (Tok.lit c :: ts) = reEscapeChar c ++ emitToks ts from rfl,
          reEscapeChar, if_pos hsp] at hlen ⊢
        simp only [List.cons_append, List.nil_append, List.length_cons] at hlen ⊢
        cases fuel with
        | zero => omega
        | succ f =>
          rw [sreParseF_step f '\\' (c :: emitToks ts) (RAtom.rch c) (emitToks ts)
            (sreAtom_esc _ _) hE]
          rw [ih f (by omega) hwf2]
          rw [toksToR_cons_some (Tok.lit c) (RAtom.rch c, false) ts rfl]
      · rw [show emitToks (Tok.lit c :: ts) = reEscapeChar c ++ emitToks ts from rfl,
          reEscapeChar, if_neg hsp] at hlen ⊢
        simp only [List.cons_append, List.nil_append, List.length_cons] at hlen ⊢
        have hlb : c ≠ '[' := fun h => hsp (by subst h; rfl)
        have hbs : c ≠ '\\' := fun h => hsp (by subst h; rfl)
        have hdot : c ≠ '.' := fun h => hsp (by subst h; rfl)
        have hst : c ≠ '*' := fun h => hsp (by subst h; rfl)
        cases fuel with
        | zero => omega
        | succ f =>
          rw [sreParseF_step f c (emitToks ts) (RAtom.rch c) (emitToks ts)
            (sreAtom_plain c _ hlb hbs hdot hst) hE]
          rw [ih f (by omega) hwf2]
          rw [toksToR_cons_some (Tok.lit c) (RAtom.rch c, false) ts rfl]
    | cls inner =>
      obtain ⟨hirb, hibs, hbody⟩ := hwf inner (List.mem_cons_self _ _)
      have hemit : emitToks (Tok.cls inner :: ts)
          = '[' :: (inner ++ ']' :: emitToks ts) := by
        show ('[' :: (inner ++ [']'])) ++ emitToks ts = _
        simp [List.append_assoc]
      rw [hemit] at hlen ⊢
      simp only [List.length_cons, List.length_append] at hlen
      cases inner with
      | nil => exact absurd rfl hbody
      | cons i0 ir =>
        by_cases hi0 : i0 = '^'
        · subst hi0
          have hbody2 : ir ≠ [] := by
            rw [classBody_caret] at hbody
            exact hbody
          have hirb2 : ']' ∉ ir := fun h => hirb (List.mem_cons_of_mem _ h)
          have hibs2 : '\\' ∉ ir := fun h => hibs (List.mem_cons_of_mem _ h)
          have hset0 := sreSetF_spec ((ir ++ ']' :: emitToks ts).length + 1)
            ir (emitToks ts) false
            (by simp only [List.length_append, List.length_cons]; omega)
            hirb2 hibs2 (Or.inr hbody2)
          simp only [List.length_cons] at hlen
          rw [show ('^' :: ir) ++ ']' :: emitToks ts
              = '^' :: (ir ++ ']' :: emitToks ts) from rfl]
          cases hpci : parseClassItems ir with
          | none =>
            have hset : sreSetStart ('^' :: (ir ++ ']' :: emitToks ts)) = none := by
              rw [sreSetStart_caret, hset0, hpci]
              rfl
            cases fuel with
            | zero => omega
            | succ f =>
              rw [sreParseF_step_none f '[' _ (sreAtom_cls_none _ hset)]
              rw [toksToR_cons_none _ _ (by simp [tokToR, classBody_caret, hpci])]
          | some its =>
            have hset : sreSetStart ('^' :: (ir ++ ']' :: emitToks ts))
                = some (true, its, emitToks ts) := by
              rw [sreSetStart_caret, hset0, hpci]
              rfl
            cases fuel with
            | zero => omega
            | succ f =>
              rw [sreParseF_step f '[' _ (RAtom.rcls true its) (emitToks ts)
                (sreAtom_cls _ _ _ _ hset) hE]
              rw [ih f (by omega) hwf2]
              rw [toksToR_cons_some (Tok.cls ('^' :: ir)) (RAtom.rcls true its, false) ts
                (by simp [tokToR, classBody_caret, hpci])]
        · have hbody2 : (i0 :: ir : Str) ≠ [] := by simp
          have hset0 := sreSetF_spec (((i0 :: ir) ++ ']' :: emitToks ts).length + 1)
            (i0 :: ir) (emitToks ts) false
            (by simp only [List.length_append, List.length_cons]; omega)
            hirb hibs (Or.inr hbody2)
          simp only [List.length_cons] at hlen
          cases hpci : parseClassItems (i0 :: ir) with
          | none =>
            have hset : sreSetStart ((i0 :: ir) ++ ']' :: emitToks ts) = none := by
              rw [sreSetStart_plain _ (by simp [hi0]), hset0, hpci]
              rfl
            cases fuel with
            | zero => omega
            | succ f =>
              rw [sreParseF_step_none f '[' _ (sreAtom_cls_none _ hset)]
              rw [toksToR_cons_none _ _ (by simp [tokToR, classBody_plain i0 ir hi0, hpci])]
          | some its =>
            have hset : sreSetStart ((i0 :: ir) ++ ']' :: emitToks ts)
                = some (false, its, emitToks ts) := by
              rw [sreSetStart_plain _ (by simp [hi0]), hset0, hpci]
              rfl
            cases fuel with
            | zero => omega
            | succ f =>
              rw [sreParseF_step f '[' _ (RAtom.rcls false its) (emitToks ts)
                (sreAtom_cls _ _ _ _ hset) hE]
              rw [ih f (by omega) hwf2]
              rw [toksToR_cons_some (Tok.cls (i0 :: ir)) (RAtom.rcls false its, false) ts
                (by simp [tokToR, classBody_plain i0 ir hi0, hpci])]

/-- `List.any` only depends on the predicate on the list. -/
theorem anyEq {α : Type} (l : List α) (f g : α → Bool) (h : ∀ x ∈ l, f x = g x) :
    l.any f = l.any g := by
  induction l with
  | nil => rfl
  | cons a t ih =>
    simp only [List.any_cons]
    rw [h a (List.mem_cons_self a t), ih (fun x hx => h x (List.mem_cons_of_mem _ hx))]

/-- `dropCandidates` only depends on the predicate. -/
theorem dropCandidates_congr (p q : Char → Bool) (h : ∀ c, p c = q c) :
    ∀ s : Str, dropCandidates p s = dropCandidates q s := by
  intro s
  induction s with
  | nil => rfl
  | cons c t ih =>
    simp only [dropCandidates]
    rw [h c, ih]

/-- The parsed `[^/]` set matches exactly the non-slash characters. -/
theorem atomMatch_slashSet (c : Char) :
    atomMatch (RAtom.rcls true [ClsItem.one '/']) c = decide (c ≠ '/') := by
  by_cases h : c = '/'
  · subst h
    decide
  · have h2 : ¬('/' = c) := fun hx => h hx.symm
    simp [atomMatch, itemMatch, h, h2]

/-- The parsed class set matches exactly as the class does. -/
theorem atomMatch_clsEq (inner : Str) (its : List ClsItem)
    (h : parseClassItems (classBody inner).2 = some its) (c : Char) :
    atomMatch (RAtom.rcls (classBody inner).1 its) c = classMatch inner c := by
  unfold classMatch
  rcases hcb : classBody inner with ⟨neg, body⟩
  rw [hcb] at h
  simp only at h
  simp only [h, atomMatch]

/-- On a token list the engine reads token by token, the parsed matcher
agrees with the token matcher. -/
theorem matchRToks_toksToR : ∀ (ts : List Tok) (rts : List RTok),
    toksToR ts = some rts → ∀ s, matchRToks rts s = matchToks ts s := by
  intro ts
  induction ts with
  | nil =>
    intro rts h s
    simp only [toksToR] at h
    injection h with h
    subst h
    rfl
  | cons t ts ih =>
    intro rts h s
    cases ht : tokToR t with
    | none =>
      rw [toksToR_cons_none t ts ht] at h
      exact absurd h (by simp)
    | some r =>
      rw [toksToR_cons_some t r ts ht] at h
      cases h2 : toksToR ts with
      | none =>
        rw [h2] at h
        exact absurd h (by simp)
      | some rs =>
        rw [h2] at h
        simp only [Option.map_some'] at h
        injection h with h
        subst h
        have ihs := ih rs h2
        cases t with
        | star2 =>
          simp only [tokToR] at ht
          injection ht with ht
          subst ht
          simp only [matchRToks, matchToks]
          rw [dropCandidates_congr (atomMatch RAtom.rdot) (fun c => decide (c ≠ '\n'))
            (fun c => rfl) s]
          exact anyEq _ _ _ (fun x _ => ihs x)
        | star1 =>
          simp only [tokToR] at ht
          injection ht with ht
          subst ht
          simp only [matchRToks, matchToks]
          rw [dropCandidates_congr (atomMatch (RAtom.rcls true [ClsItem.one '/']))
            (fun c => decide (c ≠ '/')) atomMatch_slashSet s]
          exact anyEq _ _ _ (fun x _ => ihs x)
        | qmark =>
          simp only [tokToR] at ht
          injection ht with ht
          subst ht
          cases s with
          | nil => simp [matchRToks, matchToks]
          | cons c s2 =>
            simp only [matchRToks, matchToks]
            rw [atomMatch_slashSet c, ihs s2]
            rfl
        | lit d =>
          simp only [tokToR] at ht
          injection ht with ht
          subst ht
          cases s with
          | nil => simp [matchRToks, matchToks]
          | cons c s2 =>
            simp only [matchRToks, matchToks]
            rw [ihs s2]
            rfl
        | cls inner =>
          simp only [tokToR] at ht
          cases hpci : parseClassItems (classBody inner).2 with
          | none =>
            rw [hpci] at ht
            exact absurd ht (by simp)
          | some its =>
            rw [hpci] at ht
            simp only [Option.map_some'] at ht
            injection ht with ht
            subst ht
            cases s with
            | nil => simp [matchRToks, matchToks]
            | cons c s2 =>
              simp only [matchRToks, matchToks]
              rw [atomMatch_clsEq inner its hpci c, ihs s2]
              rfl

/-! Well-formedness of the tokenizer's classes on normalized patterns:
their bodies hold no `]` and, since normalization replaced every
backslash by a slash, no `\`. -/

/-- Separator normalization leaves no backslash. -/
theorem backslashToSlash_no_bs (s : Str) : '\\' ∉ backslashToSlash s := by
  intro h
  simp only [backslashToSlash, List.mem_map] at h
  obtain ⟨c, _, hc⟩ := h
  by_cases h2 : c = '\\'
  · rw [if_pos h2] at hc
    exact absurd hc (by decide)
  · rw [if_neg h2] at hc
    exact h2 hc

/-- The `./`-stripping loop on the empty list. -/
theorem stripDotSlash_nil : stripDotSlash [] = [] := rfl

/-- The `./`-stripping loop keeps a one-character list. -/
theorem stripDotSlash_singleton (a : Char) : stripDotSlash [a] = [a] := by
  unfold stripDotSlash
  split
  · rename_i heq
    exact absurd heq (by simp)
  · rfl

/-- One step of the `./`-stripping loop on a two-or-longer list. -/
theorem stripDotSlash_cons2 (a b : Char) (Y : Str) :
    stripDotSlash (a :: b :: Y)
      = if a = '.' ∧ b = '/' then stripDotSlash Y else a :: b :: Y := by
  by_cases h : a = '.' ∧ b = '/'
  · obtain ⟨rfl, rfl⟩ := h
    rw [if_pos ⟨rfl, rfl⟩]
    rfl
  · rw [if_neg h]
    unfold stripDotSlash
    split
    · rename_i heq
      injection heq with h1 h2
      injection h2 with h2 _
      exact absurd ⟨h1, h2⟩ h
    · rfl

/-- Membership passes through the `./`-stripping loop. -/
theorem stripDotSlash_mem : ∀ (n : Nat) (s : Str), s.length ≤ n →
    ∀ x, x ∈ stripDotSlash s → x ∈ s := by
  intro n
  induction n with
  | zero =>
    intro s h x hx
    have hs : s = [] := List.length_eq_zero.1 (Nat.le_antisymm h (Nat.zero_le _))
    subst hs
    rw [stripDotSlash_nil] at hx
    exact hx
  | succ m ih =>
    intro s h x hx
    match s with
    | [] =>
      rw [stripDotSlash_nil] at hx
      exact hx
    | [a] =>
      rw [stripDotSlash_singleton] at hx
      exact hx
    | a :: b :: Y =>
      rw [stripDotSlash_cons2] at hx
      by_cases hab : a = '.' ∧ b = '/'
      · rw [if_pos hab] at hx
        simp only [List.length_cons] at h
        exact List.mem_cons_of_mem _ (List.mem_cons_of_mem _ (ih Y (by omega) x hx))
      · rw [if_neg hab] at hx
        exact hx

/-- Membership passes through stripping a leading slash. -/
theorem stripLeadSlash_mem (x : Char) (s : Str) (h : x ∈ stripLeadSlash s) : x ∈ s := by
  cases s with
  | nil => exact h
  | cons a t =>
    by_cases ha : a = '/'
    · subst ha
      exact List.mem_cons_of_mem _ h
    · have heq : stripLeadSlash (a :: t) = a :: t := by
        unfold stripLeadSlash
        split
        · rename_i heq2
          injection heq2 with h1 _
          exact absurd h1 ha
        · rfl
      rw [heq] at h
      exact h

/-- Membership passes through right-stripping slashes. -/
theorem rstripSlash_mem (x : Char) (s : Str) (h : x ∈ rstripSlash s) : x ∈ s := by
  unfold rstripSlash at h
  rw [List.mem_reverse] at h
  exact List.mem_reverse.1 ((List.dropWhile_sublist _).subset h)

/-- The definition of `_normalize_pattern`, written out. -/
theorem normalizePattern_eq (p : Str) :
    normalizePattern p =
      (if pystrip p = [] then .error .emptyPattern
       else if stripLeadSlash (stripDotSlash (backslashToSlash (pystrip p))) = [] then
         .error .rootPattern
       else if (stripLeadSlash (stripDotSlash (backslashToSlash (pystrip p)))).getLast?
           = some '/' then
         .ok (rstripSlash (stripLeadSlash (stripDotSlash (backslashToSlash (pystrip p))))
           ++ ['/', '*', '*'])
       else .ok (stripLeadSlash (stripDotSlash (backslashToSlash (pystrip p))))) := rfl

/-- A successfully normalized pattern contains no backslash. -/
theorem normalizePattern_ok_no_bs (p n : Str) (h : normalizePattern p = .ok n) :
    '\\' ∉ n := by
  intro hx
  rw [normalizePattern_eq] at h
  by_cases h1 : pystrip p = []
  · rw [if_pos h1] at h
    exact absurd h (by simp)
  · rw [if_neg h1] at h
    by_cases h2 : stripLeadSlash (stripDotSlash (backslashToSlash (pystrip p))) = []
    · rw [if_pos h2] at h
      exact absurd h (by simp)
    · rw [if_neg h2] at h
      have hcore : '\\' ∉ stripLeadSlash (stripDotSlash (backslashToSlash (pystrip p))) := by
        intro hm
        exact backslashToSlash_no_bs (pystrip p)
          (stripDotSlash_mem (backslashToSlash (pystrip p)).length _ (Nat.le_refl _) '\\'
            (stripLeadSlash_mem '\\' _ hm))
      by_cases h3 : (stripLeadSlash (stripDotSlash (backslashToSlash (pystrip p)))).getLast?
          = some '/'
      · rw [if_pos h3] at h
        injection h with h
        subst h
        rcases List.mem_append.1 hx with hx | hx
        · exact hcore (rstripSlash_mem '\\' _ hx)
        · exact absurd hx (by decide)
      · rw [if_neg h3] at h
        injection h with h
        subst h
        exact hcore hx

/-- The characters the class conversion can produce: the rewritten marker
or a character of the scanned body (assuming the body is backslash-free,
so the dead backslash-doubling is the identity). -/
theorem convertInner_body_mem (l : Str) (hl : '\\' ∉ l) (y : Char)
    (hy : y ∈ l.flatMap (fun c => if c = '\\' then ['\\', '\\'] else [c])) : y ∈ l := by
  rw [List.mem_flatMap] at hy
  obtain ⟨c, hcl, hyc⟩ := hy
  by_cases hc : c = '\\'
  · exact absurd (hc ▸ hcl) hl
  · rw [if_neg hc] at hyc
    rw [List.mem_singleton] at hyc
    subst hyc
    exact hcl

/-- Membership through `convertInner` on backslash-free bodies. -/
theorem convertInner_mem (raw : Str) (hbs : '\\' ∉ raw) :
    ∀ x ∈ convertInner raw, x = '^' ∨ x ∈ raw := by
  intro x hx
  cases raw with
  | nil =>
    rw [show convertInner [] = [] from rfl] at hx
    exact absurd hx (by simp)
  | cons a r =>
    by_cases ha : a = '!'
    · subst ha
      rw [show convertInner ('!' :: r)
          = ('^' :: r).flatMap (fun c => if c = '\\' then ['\\', '\\'] else [c]) from rfl] at hx
      have hl : '\\' ∉ ('^' :: r : Str) := by
        intro hm
        rcases List.mem_cons.1 hm with h | h
        · exact absurd h (by decide)
        · exact hbs (List.mem_cons_of_mem _ h)
      have hx2 := convertInner_body_mem ('^' :: r) hl x hx
      rcases List.mem_cons.1 hx2 with h | h
      · exact Or.inl h
      · exact Or.inr (List.mem_cons_of_mem _ h)
    · have heq : convertInner (a :: r)
          = (a :: r).flatMap (fun c => if c = '\\' then ['\\', '\\'] else [c]) := by
        unfold convertInner
        split
        · rename_i heq2
          injection heq2 with h1 _
          exact absurd h1 ha
        · rfl
      rw [heq] at hx
      exact Or.inr (convertInner_body_mem (a :: r) hbs x hx)

/-- What the class scan returns: a `]`-free body drawn from the scanned
text, and a remainder drawn from the scanned text. -/
theorem scanClass_parts (rest inner rem : Str) (h : scanClass rest = some (inner, rem)) :
    (']' ∉ inner) ∧ (∀ x ∈ inner, x ∈ rest) ∧ (∀ x ∈ rem, x ∈ rest) := by
  cases rest with
  | nil => exact absurd h (by simp [scanClass])
  | cons c r =>
    simp only [scanClass] at h
    by_cases hc : (c = '!' || c = '^') = true
    · rw [if_pos hc] at h
      cases hdw : r.dropWhile (fun x => x ≠ ']') with
      | nil =>
        rw [hdw] at h
        exact absurd h (by simp)
      | cons y rem2 =>
        rw [hdw] at h
        injection h with h
        injection h with h1 h2
        subst h1
        subst h2
        have hcne : c ≠ ']' := by
          rcases Bool.or_eq_true_iff.1 hc with h | h
          · rw [decide_eq_true_iff] at h
            subst h
            decide
          · rw [decide_eq_true_iff] at h
            subst h
            decide
        refine ⟨?_, ?_, ?_⟩
        · intro hm
          rcases List.mem_cons.1 hm with h | h
          · exact hcne h.symm
          · exact absurd (List.mem_takeWhile_imp h) (by decide)
        · intro x hm
          rcases List.mem_cons.1 hm with h | h
          · subst h
            exact List.mem_cons_self _ _
          · exact List.mem_cons_of_mem _ ((List.takeWhile_sublist _).subset h)
        · intro x hm
          have hsub : (rem2 : Str).Sublist r :=
            (List.sublist_cons_self y rem2).trans (hdw ▸ List.dropWhile_sublist _)
          exact List.mem_cons_of_mem _ (hsub.subset hm)
    · rw [if_neg hc] at h
      cases hdw : (c :: r).dropWhile (fun x => x ≠ ']') with
      | nil =>
        rw [hdw] at h
        exact absurd h (by simp)
      | cons y rem2 =>
        rw [hdw] at h
        injection h with h
        injection h with h1 h2
        subst h1
        subst h2
        refine ⟨?_, ?_, ?_⟩
        · intro hm
          exact absurd (List.mem_takeWhile_imp hm) (by decide)
        · intro x hm
          exact (List.takeWhile_sublist _).subset hm
        · intro x hm
          have hsub : (rem2 : Str).Sublist (c :: r) :=
            (List.sublist_cons_self y rem2).trans (hdw ▸ List.dropWhile_sublist _)
          exact hsub.subset hm

/-- Classes produced by the tokenizer from backslash-free text have
`]`-free, backslash-free bodies. -/
theorem globToksF_cls_wf : ∀ (fuel : Nat) (s : Str), '\\' ∉ s →
    ∀ inner, Tok.cls inner ∈ globToksF fuel s → ']' ∉ inner ∧ '\\' ∉ inner := by
  intro fuel
  induction fuel with
  | zero =>
    intro s _ inner h
    simp [globToksF] at h
  | succ f ih =>
    intro s hbs inner h
    cases s with
    | nil => simp [globToksF] at h
    | cons c rest =>
      have hbs2 : '\\' ∉ rest := fun hm => hbs (List.mem_cons_of_mem _ hm)
      rw [globToksF_succ_cons] at h
      by_cases hc : c = '*'
      · rw [if_pos hc] at h
        by_cases hh : rest.head? = some '*'
        · rw [if_pos hh] at h
          rcases List.mem_cons.1 h with h | h
          · exact absurd h (by simp)
          · exact ih _ (fun hm => hbs2 ((List.dropWhile_sublist _).subset hm)) inner h
        · rw [if_neg hh] at h
          rcases List.mem_cons.1 h with h | h
          · exact absurd h (by simp)
          · exact ih rest hbs2 inner h
      · rw [if_neg hc] at h
        by_cases hq : c = '?'
        · rw [if_pos hq] at h
          rcases List.mem_cons.1 h with h | h
          · exact absurd h (by simp)
          · exact ih rest hbs2 inner h
        · rw [if_neg hq] at h
          by_cases hl : c = '['
          · rw [if_pos hl] at h
            cases hscan : scanClass rest with
            | none =>
              rw [hscan] at h
              replace h : Tok.cls inner ∈ Tok.lit '[' :: globToksF f rest := h
              rcases List.mem_cons.1 h with h | h
              · exact absurd h (by simp)
              · exact ih rest hbs2 inner h
            | some pr =>
              obtain ⟨inner0, rem⟩ := pr
              rw [hscan] at h
              replace h : Tok.cls inner ∈ Tok.cls (convertInner inner0) :: globToksF f rem := h
              obtain ⟨hnb, hsubI, hsubR⟩ := scanClass_parts rest inner0 rem hscan
              rcases List.mem_cons.1 h with h | h
              · injection h with h
                subst h
                have hbsI : '\\' ∉ inner0 := fun hm => hbs2 (hsubI _ hm)
                constructor
                · intro hm
                  rcases convertInner_mem inner0 hbsI _ hm with h2 | h2
                  · exact absurd h2 (by decide)
                  · exact hnb h2
                · intro hm
                  rcases convertInner_mem inner0 hbsI _ hm with h2 | h2
                  · exact absurd h2 (by decide)
                  · exact hbsI h2
              · exact ih rem (fun hm => hbs2 (hsubR _ hm)) inner h
          · rw [if_neg hl] at h
            rcases List.mem_cons.1 h with h | h
            · exact absurd h (by simp)
            · exact ih rest hbs2 inner h

/-- The self-contained check, spelled on class bodies. -/
theorem all_tokRendered_iff (ts : List Tok) :
    ts.all tokRendered = true ↔ ∀ inner, Tok.cls inner ∈ ts → (classBody inner).2 ≠ [] := by
  rw [List.all_eq_true]
  constructor
  · intro h inner hm
    have h2 := h _ hm
    simpa [tokRendered] using h2
  · intro h t hm
    cases t with
    | cls inner => simpa [tokRendered] using h inner hm
    | star2 => rfl
    | star1 => rfl
    | qmark => rfl
    | lit c => rfl

/-- Unfolding a successful compile. -/
theorem compilePattern_eq_ok (p norm : Str) (rts : List RTok)
    (hn : normalizePattern p = .ok norm)
    (hp : sreParseF ((emitToks (globToks norm)).length + 1) (emitToks (globToks norm))
        = some rts) :
    compilePattern p
      = .ok { raw := p, normalized := norm, anchored := norm.contains '/',
              toks := globToks norm, rtoks := rts } := by
  simp [compilePattern, hn, hp]

/-- Unfolding a failing compile. -/
theorem compilePattern_eq_err (p norm : Str)
    (hn : normalizePattern p = .ok norm)
    (hp : sreParseF ((emitToks (globToks norm)).length + 1) (emitToks (globToks norm))
        = none) :
    compilePattern p = .error .badRegex := by
  simp [compilePattern, hn, hp]

/-- What a successful compile determines. -/
theorem compile_ok_inv (p : Str) (cp : CompiledPattern) (h : compilePattern p = .ok cp) :
    normalizePattern p = .ok cp.normalized ∧ cp.toks = globToks cp.normalized ∧
    sreParseF ((emitToks cp.toks).length + 1) (emitToks cp.toks) = some cp.rtoks := by
  cases hn : normalizePattern p with
  | error e =>
    rw [show compilePattern p = .error e from by simp [compilePattern, hn]] at h
    exact absurd h (by simp)
  | ok norm =>
    cases hp : sreParseF ((emitToks (globToks norm)).length + 1)
        (emitToks (globToks norm)) with
    | none =>
      rw [compilePattern_eq_err p norm hn hp] at h
      exact absurd h (by simp)
    | some rts =>
      rw [compilePattern_eq_ok p norm rts hn hp] at h
      injection h with h
      subst h
      exact ⟨rfl, rfl, hp⟩

/-- A successfully compiled pattern whose classes all have nonempty bodies
matches through its parse exactly as through its token list. -/
theorem compile_ok_matchers (p : Str) (cp : CompiledPattern)
    (hok : compilePattern p = .ok cp)
    (hng : cp.toks.all tokRendered = true) :
    ∀ s, matchRToks cp.rtoks s = matchToks cp.toks s := by
  obtain ⟨hn, htoks, hparse⟩ := compile_ok_inv p cp hok
  have hnb : '\\' ∉ cp.normalized := normalizePattern_ok_no_bs p _ hn
  have hwf : ∀ inner, Tok.cls inner ∈ cp.toks → ']' ∉ inner ∧ '\\' ∉ inner := by
    intro inner hm
    rw [htoks] at hm
    exact globToksF_cls_wf cp.normalized.length cp.normalized hnb inner hm
  have hng2 := (all_tokRendered_iff cp.toks).1 hng
  have hemit := sreParse_emit cp.toks ((emitToks cp.toks).length + 1) (Nat.lt_succ_self _)
    (fun inner hm => ⟨(hwf inner hm).1, (hwf inner hm).2, hng2 inner hm⟩)
  exact matchRToks_toksToR cp.toks cp.rtoks (hemit.symm.trans hparse)

/-- C7 counterexample: containing a class the translator cannot render on
its own does not imply failure.  The engine reads the emitted `[]` set's
`]` as a literal, and the next class's closing `]` closes the set, so
`[][b]` compiles — to a single set matching `]`, `[` or `b`, so it
matches the path `b` — while the same empty class with no later bare `]`
does fail (`a[]b`). -/
theorem C7_counterexample :
    (Tok.cls [] ∈ globToks ("[][b]".toList) ∧ (classBody []).2 = []) ∧
    (compilePattern ("[][b]".toList)).isOk = true ∧
    ((compilePattern ("[][b]".toList)).map (fun cp => cp.matches ("b".toList))
      = .ok true) ∧
    (compilePattern ("a[]b".toList)).isOk = false := by
  decide

/-- C7 (amended): `compile` fails with `PatternSyntaxError` iff the
pattern is blank after trimming, resolves to the repository root alone,
or the engine rejects the translated body; when every translated class
has a nonempty body the engine reads the body token by token and failure
is exactly a reversed range in some class — an empty (or `!`-only or
`^`-only) class emits a set the engine leaves open, which a later bare
`]` may rescue, so such a class is not by itself fatal.  A lone
unterminated `[` is translated to a literal `[` and never fails. -/
theorem C7_compile_error_conditions :
    (∀ p : Str, (compilePattern p).isOk = false ↔
        (pystrip p = [] ∨
         stripLeadSlash (stripDotSlash (backslashToSlash (pystrip p))) = [] ∨
         (∃ n, normalizePattern p = .ok n ∧
            sreParseF ((emitToks (globToks n)).length + 1) (emitToks (globToks n))
              = none))) ∧
    (∀ p n, normalizePattern p = .ok n → (globToks n).all tokRendered = true →
        ((compilePattern p).isOk = false ↔
          ∃ inner, Tok.cls inner ∈ globToks n ∧
            (parseClassItems (classBody inner).2).isNone = true)) ∧
    ((compilePattern ("[".toList)).map (fun cp => cp.toks) = .ok [Tok.lit '[']) := by
  refine ⟨?_, ?_, ?_⟩
  · intro p
    by_cases h1 : pystrip p = []
    · have hc : compilePattern p = .error .emptyPattern := by
        simp [compilePattern, normalizePattern, h1]
      simp [hc, h1, Except.isOk, Except.toBool]
    · by_cases h2 : stripLeadSlash (stripDotSlash (backslashToSlash (pystrip p))) = []
      · have hc : compilePattern p = .error .rootPattern := by
          simp [compilePattern, normalizePattern, h1, h2]
        simp [hc, h1, h2, Except.isOk, Except.toBool]
      · obtain ⟨n, hn⟩ : ∃ n, normalizePattern p = .ok n := by
          cases hcase : normalizePattern p with
          | error e =>
            exact absurd ((normalize_error_iff p).1 ⟨e, hcase⟩) (by simp [h1, h2])
          | ok n => exact ⟨n, rfl⟩
        cases hp : sreParseF ((emitToks (globToks n)).length + 1)
            (emitToks (globToks n)) with
        | none =>
          rw [compilePattern_eq_err p n hn hp]
          simp only [Except.isOk, Except.toBool, h1, h2, false_or]
          exact ⟨fun _ => ⟨n, hn, hp⟩, fun _ => trivial⟩
        | some rts =>
          rw [compilePattern_eq_ok p n rts hn hp]
          simp only [Except.isOk, Except.toBool, h1, h2, false_or]
          constructor
          · intro hcontra
            exact absurd hcontra (by simp)
          · rintro ⟨n2, hn2, hp2⟩
            rw [hn] at hn2
            injection hn2 with hn2
            subst hn2
            rw [hp] at hp2
            exact absurd hp2 (by simp)
  · intro p n hn hren
    have hnb := normalizePattern_ok_no_bs p n hn
    have hwf : ∀ inner, Tok.cls inner ∈ globToks n → ']' ∉ inner ∧ '\\' ∉ inner :=
      fun inner hm => globToksF_cls_wf n.length n hnb inner hm
    have hng := (all_tokRendered_iff (globToks n)).1 hren
    have hemit := sreParse_emit (globToks n) ((emitToks (globToks n)).length + 1)
      (Nat.lt_succ_self _)
      (fun inner hm => ⟨(hwf inner hm).1, (hwf inner hm).2, hng inner hm⟩)
    cases hp : sreParseF ((emitToks (globToks n)).length + 1) (emitToks (globToks n)) with
    | none =>
      rw [compilePattern_eq_err p n hn hp]
      rw [hp] at hemit
      obtain ⟨t, hm, htn⟩ := (toksToR_none_iff _).1 hemit.symm
      obtain ⟨inner, rfl, hpci⟩ := (tokToR_none_iff t).1 htn
      constructor
      · intro _
        exact ⟨inner, hm, by simp [hpci]⟩
      · intro _
        rfl
    | some rts =>
      rw [compilePattern_eq_ok p n rts hn hp]
      rw [hp] at hemit
      constructor
      · intro hcontra
        simp [Except.isOk, Except.toBool] at hcontra
      · rintro ⟨inner, hm, hpci⟩
        have hnone : toksToR (globToks n) = none :=
          (toksToR_none_iff _).2 ⟨Tok.cls inner, hm,
            (tokToR_none_iff _).2 ⟨inner, rfl, Option.isNone_iff_eq_none.1 hpci⟩⟩
        rw [hnone] at hemit
        exact absurd hemit (by simp)
  · decide

/-- C7 witness: the class characterization applied to the pattern
`x[9-0]`, whose single class holds a reversed range. -/
theorem C7_compile_error_conditions_witness :
    (normalizePattern ("x[9-0]".toList) = .ok ("x[9-0]".toList)) ∧
    ((globToks ("x[9-0]".toList)).all tokRendered = true) ∧
    ((compilePattern ("x[9-0]".toList)).isOk = false ↔
      ∃ inner, Tok.cls inner ∈ globToks ("x[9-0]".toList) ∧
        (parseClassItems (classBody inner).2).isNone = true) :=
  ⟨by decide, by decide,
   C7_compile_error_conditions.2.1 ("x[9-0]".toList) ("x[9-0]".toList)
     (by decide) (by decide)⟩

/-! Claim C2: basename anchoring. -/

/-- Specification-side: the final `/`-delimited segment of a path. -/
def lastSeg (s : Str) : Str := (s.reverse.takeWhile (fun c => c ≠ '/')).reverse

/-- Tokens that can never consume a `/`. -/
def tokSegLocal : Tok → Bool
  | .star2 => false
  | .star1 => true
  | .qmark => true
  | .cls inner => !(classMatch inner '/')
  | .lit c => c ≠ '/'

/-- A segment-local single-character token only accepts non-slash
characters. -/
theorem tokMatch1_ne_slash (t : Tok) (c : Char) (hloc : tokSegLocal t = true)
    (hm : tokMatch1 t c = true) : c ≠ '/' := by
  cases t with
  | star2 => simp [tokMatch1] at hm
  | star1 => simp [tokMatch1] at hm
  | qmark => simpa [tokMatch1] using hm
  | cls inner =>
    intro hc
    subst hc
    simp only [tokSegLocal, Bool.not_eq_eq_eq_not, Bool.not_true] at hloc
    simp [tokMatch1, hloc] at hm
  | lit d =>
    intro hc
    subst hc
    simp only [tokMatch1, decide_eq_true_eq] at hm
    simp [tokSegLocal, hm] at hloc

/-- A token sequence of segment-local tokens can only accept slash-free
strings. -/
theorem matchToks_no_slash : ∀ (ts : List Tok) (s : Str),
    (∀ t ∈ ts, tokSegLocal t = true) → matchToks ts s = true → '/' ∉ s := by
  intro ts
  induction ts with
  | nil =>
    intro s _ hm
    simp only [matchToks, Bool.or_eq_true, decide_eq_true_eq] at hm
    rcases hm with rfl | rfl <;> simp
  | cons t ts ih =>
    intro s hloc hm
    cases t with
    | star2 => have := hloc .star2 (by simp); simp [tokSegLocal] at this
    | star1 =>
      simp only [matchToks, List.any_eq_true] at hm
      obtain ⟨s', hmem, hm'⟩ := hm
      obtain ⟨pre, rfl, hall⟩ := (dropCandidates_mem _ s s').1 hmem
      intro hmem2
      rcases List.mem_append.1 hmem2 with hpre | hs'
      · have := hall '/' hpre
        simp at this
      · exact ih s' (fun t ht => hloc t (by simp [ht])) hm' hs'
    | qmark =>
      cases s with
      | nil => simp [matchToks] at hm
      | cons c s' =>
        simp only [matchToks, Bool.and_eq_true] at hm
        intro hmem2
        rcases List.mem_cons.1 hmem2 with hc | hs'
        · exact tokMatch1_ne_slash _ c (hloc _ (by simp)) hm.1 hc.symm
        · exact ih s' (fun t ht => hloc t (by simp [ht])) hm.2 hs'
    | cls inner =>
      cases s with
      | nil => simp [matchToks] at hm
      | cons c s' =>
        simp only [matchToks, Bool.and_eq_true] at hm
        intro hmem2
        rcases List.mem_cons.1 hmem2 with hc | hs'
        · exact tokMatch1_ne_slash _ c (hloc _ (by simp)) hm.1 hc.symm
        · exact ih s' (fun t ht => hloc t (by simp [ht])) hm.2 hs'
    | lit d =>
      cases s with
      | nil => simp [matchToks] at hm
      | cons c s' =>
        simp only [matchToks, Bool.and_eq_true] at hm
        intro hmem2
        rcases List.mem_cons.1 hmem2 with hc | hs'
        · exact tokMatch1_ne_slash _ c (hloc _ (by simp)) hm.1 hc.symm
        · exact ih s' (fun t ht => hloc t (by simp [ht])) hm.2 hs'

/-- Membership in the basename continuation points: exactly the suffixes
following a `/` reached through a newline-free prefix. -/
theorem slashSplits_mem : ∀ (s s' : Str),
    s' ∈ slashSplits s ↔ ∃ pre, s = pre ++ '/' :: s' ∧ ∀ c ∈ pre, c ≠ '\n' := by
  intro s
  induction s with
  | nil =>
    intro s'
    simp only [slashSplits, List.not_mem_nil, false_iff]
    rintro ⟨pre, hs, _⟩
    exact absurd hs.symm (by simp)
  | cons c t ih =>
    intro s'
    constructor
    · intro h
      simp only [slashSplits] at h
      rcases List.mem_append.1 h with h | h
      · by_cases hc : c = '/'
        · rw [if_pos hc] at h
          simp only [List.mem_singleton] at h
          subst h hc
          exact ⟨[], rfl, by simp⟩
        · rw [if_neg hc] at h
          simp at h
      · by_cases hc : c ≠ '\n'
        · rw [if_pos (by simpa using hc)] at h
          obtain ⟨pre, rfl, hnl⟩ := (ih s').1 h
          exact ⟨c :: pre, rfl, by
            intro x hx
            rcases List.mem_cons.1 hx with rfl | hx
            · exact hc
            · exact hnl x hx⟩
        · rw [if_neg (by simpa using hc)] at h
          simp at h
    · rintro ⟨pre, hs, hnl⟩
      cases pre with
      | nil =>
        simp only [List.nil_append, List.cons.injEq] at hs
        obtain ⟨rfl, rfl⟩ := hs
        simp [slashSplits]
      | cons c₀ pre' =>
        simp only [List.cons_append, List.cons.injEq] at hs
        obtain ⟨rfl, ht⟩ := hs
        have hcnl : c ≠ '\n' := hnl c (by simp)
        simp only [slashSplits, List.mem_append]
        refine Or.inr ?_
        rw [if_pos (by simpa using hcnl)]
        exact (ih s').2 ⟨pre', ht, fun x hx => hnl x (by simp [hx])⟩

/-- Taking while everything passes. -/
theorem takeWhile_all {α : Type} (p : α → Bool) : ∀ (l : List α),
    (∀ x ∈ l, p x = true) → l.takeWhile p = l := by
  intro l
  induction l with
  | nil => intro _; simp
  | cons a t ih =>
    intro h
    rw [List.takeWhile_cons_of_pos (h a (by simp))]
    rw [ih (fun x hx => h x (by simp [hx]))]

/-- Taking up to the first failing element in the left part. -/
theorem takeWhile_append_fail {α : Type} (p : α → Bool) (l₁ : List α) (c : α)
    (l₂ : List α) (hall : ∀ x ∈ l₁, p x = true) (hc : p c = false) :
    (l₁ ++ c :: l₂).takeWhile p = l₁ := by
  induction l₁ with
  | nil =>
    rw [List.nil_append,
      List.takeWhile_cons_of_neg (show ¬p c = true by rw [hc]; exact Bool.false_ne_true)]
  | cons a t ih =>
    rw [List.cons_append, List.takeWhile_cons_of_pos (hall a (by simp))]
    rw [ih (fun x hx => hall x (by simp [hx]))]

/-- Taking stops inside the left part when it contains a failure. -/
theorem takeWhile_append_of_fail {α : Type} (p : α → Bool) : ∀ (l₁ l₂ : List α),
    (∃ x ∈ l₁, p x = false) → (l₁ ++ l₂).takeWhile p = l₁.takeWhile p := by
  intro l₁
  induction l₁ with
  | nil =>
    intro l₂ h
    simp at h
  | cons a t ih =>
    intro l₂ h
    by_cases ha : p a = true
    · rw [List.cons_append, List.takeWhile_cons_of_pos ha,
        List.takeWhile_cons_of_pos ha]
      obtain ⟨x, hx, hpx⟩ := h
      rcases List.mem_cons.1 hx with rfl | hx
      · rw [ha] at hpx; simp at hpx
      · rw [ih l₂ ⟨x, hx, hpx⟩]
    · have ha' : p a = false := by
        cases hp : p a
        · rfl
        · exact absurd hp ha
      rw [List.cons_append, List.takeWhile_cons_of_neg (by simp [ha']),
        List.takeWhile_cons_of_neg (by simp [ha'])]

/-- A slash-free path is its own final segment. -/
theorem lastSeg_no_slash (s : Str) (h : '/' ∉ s) : lastSeg s = s := by
  unfold lastSeg
  rw [takeWhile_all _ s.reverse (by
    intro x hx
    have : x ∈ s := List.mem_reverse.1 hx
    simp only [ne_eq, decide_eq_true_eq]
    intro hxx
    exact h (hxx ▸ this))]
  exact List.reverse_reverse s

/-- The final segment of a path ending in a slash-free suffix after a
slash. -/
theorem lastSeg_append_slash (pre s' : Str) (h : '/' ∉ s') :
    lastSeg (pre ++ '/' :: s') = s' := by
  unfold lastSeg
  rw [List.reverse_append, List.reverse_cons]
  rw [List.append_assoc, List.singleton_append]
  rw [takeWhile_append_fail _ s'.reverse '/' _ (by
    intro x hx
    have : x ∈ s' := List.mem_reverse.1 hx
    simp only [ne_eq, decide_eq_true_eq]
    intro hxx
    exact h (hxx ▸ this)) (by simp)]
  exact List.reverse_reverse s'

/-- Every path containing a slash splits as prefix, slash, final
segment. -/
theorem exists_lastSeg_decomp : ∀ (path : Str), '/' ∈ path →
    ∃ pre, path = pre ++ '/' :: lastSeg path ∧ '/' ∉ lastSeg path := by
  intro path
  induction path with
  | nil => intro h; simp at h
  | cons c t ih =>
    intro h
    by_cases hslash : '/' ∈ t
    · obtain ⟨pre, hpre, hns⟩ := ih hslash
      have hseg : lastSeg (c :: t) = lastSeg t := by
        unfold lastSeg
        rw [List.reverse_cons]
        rw [takeWhile_append_of_fail _ t.reverse [c]
          ⟨'/', List.mem_reverse.2 hslash, by simp⟩]
      rw [hseg]
      exact ⟨c :: pre, by rw [List.cons_append, ← hpre], hns⟩
    · have hc : c = '/' := by
        rcases List.mem_cons.1 h with hh | hh
        · exact hh.symm
        · exact absurd hh hslash
      subst hc
      have hseg : lastSeg ('/' :: t) = t := lastSeg_append_slash [] t hslash
      rw [hseg]
      exact ⟨[], rfl, hslash⟩

/-- C2 counterexample: the claim fails in both directions.  For the
basename pattern `a**b` the compiled matcher accepts `a/b` although the
glob does not match the final segment `b`; for the basename pattern `*d`
and the newline-containing path the matcher rejects although the glob
matches the final segment; and for the basename pattern `[][b]` — whose
empty class leaves its emitted set open until the following class's `]`
closes it — the compiled matcher accepts the path `b` although the
token-wise glob reading rejects it. -/
theorem C2_counterexample :
    ((compilePattern ("a**b".toList)).map (fun cp =>
        (cp.normalized.contains '/', cp.matches ("a/b".toList),
         matchToks cp.toks (lastSeg ("a/b".toList)))) = .ok (false, true, false)) ∧
    ((compilePattern ("*d".toList)).map (fun cp =>
        (cp.normalized.contains '/', cp.matches ("x\n/ad".toList),
         matchToks cp.toks (lastSeg ("x\n/ad".toList)))) = .ok (false, false, true)) ∧
    ((compilePattern ("[][b]".toList)).map (fun cp =>
        (cp.normalized.contains '/', cp.matches ("b".toList),
         matchToks cp.toks (lastSeg ("b".toList)))) = .ok (false, true, false)) := by
  refine ⟨?_, ?_, ?_⟩
  · decide
  · decide
  · decide

/-- C2 (amended): for a successfully compiled pattern whose normalized
form contains no `/`, whose token list is segment-local (no `**` and no
character class that accepts `/`) and whose classes all have nonempty
bodies (so the engine reads the emitted body token by token — an empty
class makes the engine fuse tokens into one set, see the counterexample),
the compiled matcher accepts a newline-free path exactly when the glob
matches the final `/`-delimited segment of the path. -/
theorem C2_basename_anchoring (p path : Str) (cp : CompiledPattern)
    (hok : compilePattern p = .ok cp) (hanch : cp.anchored = false)
    (hloc : ∀ t ∈ cp.toks, tokSegLocal t = true)
    (hng : cp.toks.all tokRendered = true) (hnl : '\n' ∉ path) :
    cp.matches path = matchToks cp.toks (lastSeg path) := by
  have hmr := compile_ok_matchers p cp hok hng
  unfold CompiledPattern.matches
  rw [hanch]
  simp only [Bool.false_eq_true, if_false]
  rw [hmr path]
  rw [anyEq (slashSplits path) (fun s => matchRToks cp.rtoks s)
    (fun s => matchToks cp.toks s) (fun s _ => hmr s)]
  cases hms : matchToks cp.toks (lastSeg path) with
  | true =>
    rw [Bool.or_eq_true]
    by_cases hsl : '/' ∈ path
    · obtain ⟨pre, hdec, _⟩ := exists_lastSeg_decomp path hsl
      refine Or.inr ?_
      rw [List.any_eq_true]
      refine ⟨lastSeg path, ?_, hms⟩
      refine (slashSplits_mem path (lastSeg path)).2 ⟨pre, hdec, ?_⟩
      intro x hx hxx
      subst hxx
      exact hnl (by rw [hdec]; exact List.mem_append.2 (Or.inl hx))
    · rw [lastSeg_no_slash path hsl] at hms
      exact Or.inl hms
  | false =>
    cases h1 : matchToks cp.toks path with
    | true =>
      have hns := matchToks_no_slash cp.toks path hloc h1
      rw [lastSeg_no_slash path hns] at hms
      rw [h1] at hms
      exact absurd hms (by simp)
    | false =>
      cases h2 : (slashSplits path).any (fun s => matchToks cp.toks s) with
      | false => rfl
      | true =>
        rw [List.any_eq_true] at h2
        obtain ⟨s', hmem, hm'⟩ := h2
        obtain ⟨pre, hdec, _⟩ := (slashSplits_mem path s').1 hmem
        have hns := matchToks_no_slash cp.toks s' hloc hm'
        have : lastSeg path = s' := by rw [hdec]; exact lastSeg_append_slash pre s' hns
        rw [this, hm'] at hms
        exact absurd hms (by simp)

/-- C2 witness: the amended theorem applied to the pattern `*.md` and the
path `docs/README.md`. -/
theorem C2_basename_anchoring_witness :
    (compilePattern ("*.md".toList)
        = .ok { raw := "*.md".toList, normalized := "*.md".toList, anchored := false,
                toks := [.star1, .lit '.', .lit 'm', .lit 'd'],
                rtoks := [(.rcls true [.one '/'], true), (.rch '.', false),
                          (.rch 'm', false), (.rch 'd', false)] }) ∧
    ((({ raw := "*.md".toList, normalized := "*.md".toList, anchored := false,
         toks := [.star1, .lit '.', .lit 'm', .lit 'd'],
         rtoks := [(.rcls true [.one '/'], true), (.rch '.', false),
                   (.rch 'm', false), (.rch 'd', false)] } : CompiledPattern).matches
        ("docs/README.md".toList))
      = matchToks [.star1, .lit '.', .lit 'm', .lit 'd']
          (lastSeg ("docs/README.md".toList))) :=
  ⟨by decide,
   C2_basename_anchoring ("*.md".toList) ("docs/README.md".toList) _ (by decide)
     (by decide) (by decide) (by decide) (by decide)⟩

/-! Claim C8: trailing-slash shorthand.  Supporting list lemmas. -/

/-- Elements kept by `takeWhile` satisfy the predicate. -/
theorem takeWhile_mem {α : Type} (p : α → Bool) : ∀ (l : List α) (x : α),
    x ∈ l.takeWhile p → p x = true := by
  intro l
  induction l with
  | nil => intro x hx; simp at hx
  | cons a t ih =>
    intro x hx
    by_cases ha : p a = true
    · rw [List.takeWhile_cons_of_pos ha] at hx
      rcases List.mem_cons.1 hx with rfl | hx
      · exact ha
      · exact ih x hx
    · rw [List.takeWhile_cons_of_neg (by simpa using ha)] at hx
      simp at hx

/-- `dropWhile` skips over a fully satisfying prefix. -/
theorem dropWhile_append_all {α : Type} (p : α → Bool) : ∀ (w z : List α),
    (∀ x ∈ w, p x = true) → (w ++ z).dropWhile p = z.dropWhile p := by
  intro w
  induction w with
  | nil => intro z _; simp
  | cons a t ih =>
    intro z hall
    rw [List.cons_append, List.dropWhile_cons_of_pos (hall a (by simp))]
    exact ih z (fun x hx => hall x (by simp [hx]))

/-- `dropWhile` of a list ending in a failing element keeps that
element. -/
theorem dropWhile_append_last {α : Type} (p : α → Bool) (a : α) (ha : p a = false) :
    ∀ (l : List α), ∃ y, (l ++ [a]).dropWhile p = y ++ [a] := by
  intro l
  induction l with
  | nil =>
    refine ⟨[], ?_⟩
    rw [List.nil_append,
      List.dropWhile_cons_of_neg (by rw [ha]; exact Bool.false_ne_true)]
  | cons b t ih =>
    by_cases hb : p b = true
    · rw [List.cons_append, List.dropWhile_cons_of_pos hb]
      exact ih
    · rw [List.cons_append, List.dropWhile_cons_of_neg (by simpa using hb)]
      exact ⟨b :: t, rfl⟩

/-- The result of `dropWhile` is empty or starts with a failing element. -/
theorem dropWhile_head_not {α : Type} (p : α → Bool) : ∀ (l : List α),
    l.dropWhile p = [] ∨ ∃ h t, l.dropWhile p = h :: t ∧ p h = false := by
  intro l
  induction l with
  | nil => exact Or.inl rfl
  | cons a t ih =>
    by_cases ha : p a = true
    · rw [List.dropWhile_cons_of_pos ha]
      exact ih
    · rw [List.dropWhile_cons_of_neg (by simpa using ha)]
      exact Or.inr ⟨a, t, rfl, by cases hp : p a with
        | true => exact absurd hp ha
        | false => rfl⟩

/-- Right-stripping does nothing to a list ending in a non-space
character. -/
theorem rstrip_ends_nonspace (y : Str) (a : Char) (ha : isSpace a = false) :
    rstrip (y ++ [a]) = y ++ [a] := by
  unfold rstrip
  rw [List.reverse_append, List.reverse_singleton, List.singleton_append,
    List.dropWhile_cons_of_neg (by rw [ha]; exact Bool.false_ne_true),
    List.reverse_cons, List.reverse_reverse]

/-- Slash-stripping a list ending in one slash preceded by a non-slash. -/
theorem rstripSlash_append (y : Str) (c : Char) (hc : c ≠ '/') :
    rstripSlash (y ++ [c, '/']) = y ++ [c] := by
  unfold rstripSlash
  rw [show y ++ [c, '/'] = (y ++ [c]) ++ ['/'] from by simp,
    List.reverse_append, List.reverse_singleton, List.singleton_append,
    List.dropWhile_cons_of_pos (by simp), List.reverse_append,
    List.reverse_singleton, List.singleton_append,
    List.dropWhile_cons_of_neg (by simpa using hc),
    List.reverse_cons, List.reverse_reverse]

/-- The `./`-stripping loop returns a suffix of its input. -/
theorem stripDotSlash_suffix : ∀ (n : Nat) (X : Str), X.length ≤ n →
    ∃ d, X = d ++ stripDotSlash X := by
  intro n
  induction n with
  | zero =>
    intro X h
    have hX : X = [] := List.length_eq_zero.1 (Nat.le_antisymm h (Nat.zero_le _))
    subst hX
    exact ⟨[], rfl⟩
  | succ n ih =>
    intro X h
    match X with
    | [] => exact ⟨[], rfl⟩
    | [a] => exact ⟨[], by rw [stripDotSlash_singleton]; rfl⟩
    | a :: b :: Y =>
      rw [stripDotSlash_cons2]
      by_cases hab : a = '.' ∧ b = '/'
      · rw [if_pos hab]
        simp only [List.length_cons] at h
        obtain ⟨d, hd⟩ := ih Y (by omega)
        exact ⟨a :: b :: d, by rw [List.cons_append, List.cons_append, ← hd]⟩
      · rw [if_neg hab]
        exact ⟨[], rfl⟩

/-- Appending does not change the `./`-stripping loop when the stripped
result keeps at least two characters. -/
theorem stripDotSlash_append : ∀ (n : Nat) (X T : Str), X.length ≤ n →
    2 ≤ (stripDotSlash X).length →
    stripDotSlash (X ++ T) = stripDotSlash X ++ T := by
  intro n
  induction n with
  | zero =>
    intro X T h hlen
    have hX : X = [] := List.length_eq_zero.1 (Nat.le_antisymm h (Nat.zero_le _))
    subst hX
    simp [stripDotSlash] at hlen
  | succ n ih =>
    intro X T h hlen
    match X with
    | [] => simp [stripDotSlash] at hlen
    | [a] =>
      rw [stripDotSlash_singleton] at hlen
      simp at hlen
    | a :: b :: Y =>
      rw [stripDotSlash_cons2] at hlen ⊢
      by_cases hab : a = '.' ∧ b = '/'
      · rw [if_pos hab] at hlen ⊢
        obtain ⟨rfl, rfl⟩ := hab
        simp only [List.length_cons] at h
        rw [List.cons_append, List.cons_append, stripDotSlash_cons2,
          if_pos ⟨rfl, rfl⟩]
        exact ih Y T (by omega) hlen
      · rw [if_neg hab] at hlen ⊢
        rw [List.cons_append, List.cons_append, stripDotSlash_cons2, if_neg hab]

/-- Appending commutes with stripping a single leading slash on a
nonempty list. -/
theorem stripLeadSlash_append (R T : Str) (hR : R ≠ []) :
    stripLeadSlash (R ++ T) = stripLeadSlash R ++ T := by
  cases R with
  | nil => exact absurd rfl hR
  | cons a t =>
    unfold stripLeadSlash
    by_cases ha : a = '/'
    · subst ha
      rfl
    · rw [List.cons_append]
      split
      · rename_i heq
        injection heq with h1 _
        exact absurd h1 ha
      · split
        · rename_i heq
          injection heq with h1 _
          exact absurd h1 ha
        · rfl

/-- Two patterns with the same normalization compile to matchers that
agree on every path (only the stored raw pattern differs). -/
theorem compile_matches_congr (p q : Str)
    (hn : normalizePattern p = normalizePattern q) (path : Str) :
    (compilePattern p).map (fun cp => cp.matches path)
      = (compilePattern q).map (fun cp => cp.matches path) := by
  cases hq : normalizePattern q with
  | error e =>
    rw [show compilePattern p = .error e from by simp [compilePattern, hn.trans hq]]
    rw [show compilePattern q = .error e from by simp [compilePattern, hq]]
  | ok norm =>
    cases hp : sreParseF ((emitToks (globToks norm)).length + 1)
        (emitToks (globToks norm)) with
    | none =>
      rw [compilePattern_eq_err p norm (hn.trans hq) hp,
        compilePattern_eq_err q norm hq hp]
    | some rts =>
      rw [compilePattern_eq_ok p norm rts (hn.trans hq) hp,
        compilePattern_eq_ok q norm rts hq hp]
      rfl

/-- C8: for a pattern `p` that ends in a bare directory name plus `/`
(one trailing slash preceded by a character that is neither `/` nor a
backslash) and compiles, `compile(p)` behaves identically to
`compile(p.rstrip('/') + "/**")`: normalization sends both to the same
string, so the two compiled matchers accept exactly the same paths. -/
theorem C8_trailing_slash (p p₀ s n : Str) (c : Char)
    (hp : p = p₀ ++ ['/'])
    (hshape : pystrip p = s ++ [c, '/'])
    (hc1 : c ≠ '/') (hc2 : c ≠ '\\')
    (hok : normalizePattern p = .ok n) :
    normalizePattern (rstripSlash p ++ ['/', '*', '*']) = .ok n ∧
    ∀ path, (compilePattern p).map (fun cp => cp.matches path)
      = (compilePattern (rstripSlash p ++ ['/', '*', '*'])).map
          (fun cp => cp.matches path) := by
  -- the left-trimmed pattern ends in a slash, so strip() is lstrip()
  have hA1 : ∃ y, lstrip p = y ++ ['/'] := by
    rw [hp]
    exact dropWhile_append_last isSpace '/' (by decide) p₀
  obtain ⟨y, hy⟩ := hA1
  have hA2 : pystrip p = lstrip p := by
    unfold pystrip
    rw [hy]
    exact rstrip_ends_nonspace y '/' (by decide)
  have hX : List.dropWhile isSpace p = s ++ [c, '/'] := by
    rw [show List.dropWhile isSpace p = lstrip p from rfl, ← hA2, hshape]
  obtain ⟨W, hW⟩ : ∃ W, p.takeWhile isSpace = W := ⟨_, rfl⟩
  have hw : ∀ x ∈ W, isSpace x = true := fun x hx =>
    takeWhile_mem isSpace p x (hW ▸ hx)
  have hpdec : p = W ++ (s ++ [c, '/']) := by
    have hsplit := List.takeWhile_append_dropWhile isSpace p
    rw [hW, hX] at hsplit
    exact hsplit.symm
  -- rstrip('/') of the raw pattern
  have hrsp : rstripSlash p = (W ++ s) ++ [c] := by
    conv_lhs => rw [hpdec]
    rw [show W ++ (s ++ [c, '/']) = (W ++ s) ++ [c, '/'] from by simp]
    exact rstripSlash_append _ c hc1
  -- strip() of the rewritten pattern
  obtain ⟨hd, tl, hhd, hhdf⟩ :
      ∃ hd tl, s ++ [c, '/'] = hd :: tl ∧ isSpace hd = false := by
    rcases dropWhile_head_not isSpace p with hemp | ⟨h, t, hht, hfail⟩
    · rw [hX] at hemp; simp at hemp
    · rw [hX] at hht
      exact ⟨h, t, hht, hfail⟩
  have hp' : rstripSlash p ++ ['/', '*', '*'] = W ++ ((s ++ [c, '/']) ++ ['*', '*']) := by
    rw [hrsp]
    simp
  have hstrip' : pystrip (rstripSlash p ++ ['/', '*', '*'])
      = (s ++ [c, '/']) ++ ['*', '*'] := by
    unfold pystrip lstrip
    rw [hp', dropWhile_append_all isSpace W _ hw, hhd, List.cons_append,
      List.dropWhile_cons_of_neg (by rw [hhdf]; exact Bool.false_ne_true)]
    rw [show hd :: (tl ++ ['*', '*']) = (hd :: (tl ++ ['*'])) ++ ['*'] from by simp]
    rw [rstrip_ends_nonspace _ '*' (by decide)]
  -- backslash conversion
  obtain ⟨u, hu⟩ : ∃ u, backslashToSlash s = u := ⟨_, rfl⟩
  have hbsX : backslashToSlash (s ++ [c, '/']) = u ++ [c, '/'] := by
    unfold backslashToSlash at hu ⊢
    rw [List.map_append, hu]
    simp [hc2]
  have hbsP : backslashToSlash (pystrip p) = u ++ [c, '/'] := by
    rw [hshape, hbsX]
  have hbsZ : backslashToSlash ((s ++ [c, '/']) ++ ['*', '*'])
      = (u ++ [c, '/']) ++ ['*', '*'] := by
    unfold backslashToSlash at hbsX ⊢
    rw [List.map_append, hbsX]
    rfl
  -- the ./-stripping loop
  have hnotroot : stripLeadSlash (stripDotSlash (backslashToSlash (pystrip p))) ≠ [] := by
    intro hcon
    rw [normalizePattern_eq, if_neg (by rw [hshape]; simp), if_pos hcon] at hok
    exact absurd hok (by simp)
  rw [hbsP] at hnotroot
  obtain ⟨d, hd2⟩ := stripDotSlash_suffix (u ++ [c, '/']).length (u ++ [c, '/'])
    (Nat.le_refl _)
  have hRne : stripDotSlash (u ++ [c, '/']) ≠ [] := by
    intro hcon
    rw [hcon] at hnotroot
    exact hnotroot rfl
  have hRne2 : stripDotSlash (u ++ [c, '/']) ≠ ['/'] := by
    intro hcon
    rw [hcon] at hnotroot
    exact hnotroot rfl
  have hlen2 : d.length + (stripDotSlash (u ++ [c, '/'])).length = u.length + 2 := by
    have hcg := congrArg List.length hd2
    simp only [List.length_append, List.length_cons, List.length_singleton,
      List.length_nil] at hcg
    omega
  have hR2 : 2 ≤ (stripDotSlash (u ++ [c, '/'])).length := by
    cases hq : stripDotSlash (u ++ [c, '/']) with
    | nil => exact absurd hq hRne
    | cons x xs =>
      cases xs with
      | nil =>
        rw [hq] at hd2
        have h1 : (d ++ [x]).getLast? = some x := List.getLast?_concat d
        have h2 : (u ++ [c, '/']).getLast? = some '/' := by
          rw [show u ++ [c, '/'] = (u ++ [c]) ++ ['/'] from by simp]
          exact List.getLast?_concat _
        rw [hd2] at h2
        rw [h1] at h2
        injection h2 with h2
        rw [h2] at hq
        exact absurd hq hRne2
      | cons z zs => simp
  obtain ⟨s₁, hs₁⟩ : ∃ s₁, stripDotSlash (u ++ [c, '/']) = s₁ ++ [c, '/'] := by
    have hdlen : d.length ≤ u.length := by omega
    refine ⟨u.drop d.length, ?_⟩
    have hdl : stripDotSlash (u ++ [c, '/'])
        = (d ++ stripDotSlash (u ++ [c, '/'])).drop d.length :=
      (List.drop_left d _).symm
    rw [hdl, ← hd2, List.drop_append_of_le_length hdlen]
  have hSDS' : stripDotSlash ((u ++ [c, '/']) ++ ['*', '*'])
      = (s₁ ++ [c, '/']) ++ ['*', '*'] := by
    rw [stripDotSlash_append (u ++ [c, '/']).length _ _ (Nat.le_refl _) hR2, hs₁]
  -- the single leading slash
  obtain ⟨s₂, hs₂⟩ : ∃ s₂, stripLeadSlash (s₁ ++ [c, '/']) = s₂ ++ [c, '/'] := by
    cases s₁ with
    | nil =>
      refine ⟨[], ?_⟩
      rw [List.nil_append]
      unfold stripLeadSlash
      split
      · rename_i heq
        injection heq with h1 _
        exact absurd h1 hc1
      · rfl
    | cons a t =>
      by_cases ha : a = '/'
      · subst ha
        exact ⟨t, rfl⟩
      · refine ⟨a :: t, ?_⟩
        rw [List.cons_append]
        unfold stripLeadSlash
        split
        · rename_i heq
          injection heq with h1 _
          exact absurd h1 ha
        · rfl
  have hlead' : stripLeadSlash ((s₁ ++ [c, '/']) ++ ['*', '*'])
      = (s₂ ++ [c, '/']) ++ ['*', '*'] := by
    rw [stripLeadSlash_append _ _ (by simp), hs₂]
  -- assembling both normalizations
  have hcore : stripLeadSlash (stripDotSlash (backslashToSlash (pystrip p)))
      = s₂ ++ [c, '/'] := by
    rw [hbsP, hs₁, hs₂]
  have hlast : (s₂ ++ [c, '/']).getLast? = some '/' := by
    rw [show s₂ ++ [c, '/'] = (s₂ ++ [c]) ++ ['/'] from by simp]
    exact List.getLast?_concat _
  have hnormp : normalizePattern p = .ok ((s₂ ++ [c]) ++ ['/', '*', '*']) := by
    rw [normalizePattern_eq, if_neg (by rw [hshape]; simp), hcore,
      if_neg (by simp), if_pos hlast, rstripSlash_append s₂ c hc1]
  have hn : n = (s₂ ++ [c]) ++ ['/', '*', '*'] := by
    rw [hnormp] at hok
    injection hok with hok
    exact hok.symm
  have hcore' : stripLeadSlash (stripDotSlash (backslashToSlash
      (pystrip (rstripSlash p ++ ['/', '*', '*']))))
      = (s₂ ++ [c, '/']) ++ ['*', '*'] := by
    rw [hstrip', hbsZ, hSDS', hlead']
  have hlast' : ((s₂ ++ [c, '/']) ++ ['*', '*']).getLast? = some '*' := by
    rw [show (s₂ ++ [c, '/']) ++ ['*', '*'] = ((s₂ ++ [c, '/']) ++ ['*']) ++ ['*']
      from by simp]
    exact List.getLast?_concat _
  have hnormp' : normalizePattern (rstripSlash p ++ ['/', '*', '*'])
      = .ok ((s₂ ++ [c]) ++ ['/', '*', '*']) := by
    rw [normalizePattern_eq, if_neg (by rw [hstrip']; simp), hcore',
      if_neg (by simp), if_neg (by rw [hlast']; simp)]
    congr 1
    simp
  constructor
  · rw [hnormp', hn]
  · intro path
    exact compile_matches_congr p _ (by rw [hnormp, hnormp']) path

/-- C8 witness: the theorem applied to the pattern `docs/`. -/
theorem C8_trailing_slash_witness :
    ("docs/".toList = "docs".toList ++ ['/']) ∧
    (pystrip ("docs/".toList) = "doc".toList ++ ['s', '/']) ∧
    ('s' ≠ '/') ∧ ('s' ≠ '\\') ∧
    (normalizePattern ("docs/".toList) = .ok ("docs/**".toList)) ∧
    (normalizePattern (rstripSlash ("docs/".toList) ++ ['/', '*', '*'])
        = .ok ("docs/**".toList) ∧
     ∀ path, (compilePattern ("docs/".toList)).map (fun cp => cp.matches path)
       = (compilePattern (rstripSlash ("docs/".toList) ++ ['/', '*', '*'])).map
           (fun cp => cp.matches path)) :=
  ⟨by decide, by decide, by decide, by decide, by decide,
   C8_trailing_slash ("docs/".toList) ("docs".toList) ("doc".toList)
     ("docs/**".toList) 's' (by decide) (by decide) (by decide) (by decide) (by decide)⟩

/-! Claim C9: comment handling in the rule-file parser. -/

/-- Specification-side: position `i` of the line starts a comment when it
holds a `#` outside quotes (an even number of quote characters precede
it) that sits at line start or right after whitespace. -/
def isCommentStart (line : Str) (i : Nat) : Bool :=
  (line.get? i = some '#') &&
  !((line.take i).countP (fun c => c = '\'' || c = '"') % 2 == 1) &&
  (match i, line.get? (i - 1) with
   | 0, _ => true
   | _ + 1, some ch => isSpace ch
   | _ + 1, none => false)

/-- Specification-side comment stripping: cut at the first comment start,
then right-strip. -/
def specStripInline (line : Str) : Str :=
  match (List.range line.length).find? (fun i => isCommentStart line i) with
  | some i => rstrip (line.take i)
  | none => rstrip line

/-- Appending one character flips the quote parity exactly when it is a
quote. -/
theorem parity_flip (n : Nat) : ((n + 1) % 2 == 1) = !(n % 2 == 1) := by
  rcases Nat.mod_two_eq_zero_or_one n with h | h
  · rw [show (n + 1) % 2 = 1 from by omega, h]
    rfl
  · rw [show (n + 1) % 2 = 0 from by omega, h]
    rfl

/-- The boundary instance of `isCommentStart` seen while scanning. -/
theorem isCommentStart_boundary (pre : Str) (ch : Char) (rest : Str) :
    isCommentStart (pre ++ ch :: rest) pre.length
      = ((ch = '#') &&
         !(pre.countP (fun c => c = '\'' || c = '"') % 2 == 1) &&
         (match pre.getLast? with | none => true | some c => isSpace c)) := by
  unfold isCommentStart
  have h1 : (pre ++ ch :: rest).get? pre.length = some ch := by
    rw [List.get?_eq_getElem?, getElemAppendCons]
  have h2 : (pre ++ ch :: rest).take pre.length = pre := List.take_left pre _
  rw [h1, h2]
  cases hpre : pre with
  | nil => simp
  | cons a t =>
    have h3 : ((a :: t) ++ ch :: rest).get? ((a :: t).length - 1) = (a :: t).getLast? := by
      rw [List.get?_append (by simp), ← List.getLast?_eq_get?]
    simp only [List.length_cons, Nat.add_sub_cancel] at h3
    simp only [List.length_cons, Nat.add_sub_cancel]
    rw [h3]
    cases hg : (a :: t).getLast? with
    | none => simp at hg
    | some g => simp

/-- One step of the comment scanner. -/
theorem stripCommentGo_cons (inq : Bool) (prev : Option Char) (ch : Char) (rest : Str) :
    stripCommentGo inq prev (ch :: rest)
      = if (ch = '#' && !inq && (match prev with | none => true | some c => isSpace c))
          = true
        then []
        else ch :: stripCommentGo (if ch = '\'' || ch = '"' then !inq else inq)
          (some ch) rest := rfl

/-- The scanning loop of `_strip_inline_comment` computes the cut at the
first specification-side comment start. -/
theorem stripCommentGo_spec : ∀ (rest pre : Str),
    stripCommentGo (pre.countP (fun c => c = '\'' || c = '"') % 2 == 1) pre.getLast? rest
      = (match (List.range rest.length).find?
            (fun j => isCommentStart (pre ++ rest) (pre.length + j)) with
         | some j => rest.take j
         | none => rest) := by
  intro rest
  induction rest with
  | nil => intro pre; simp [stripCommentGo, List.range_zero, List.find?_nil]
  | cons ch rest' ih =>
    intro pre
    have hbound : isCommentStart (pre ++ ch :: rest') (pre.length + 0)
        = ((ch = '#') &&
           !(pre.countP (fun c => c = '\'' || c = '"') % 2 == 1) &&
           (match pre.getLast? with | none => true | some c => isSpace c)) := by
      rw [Nat.add_zero]
      exact isCommentStart_boundary pre ch rest'
    rw [show (ch :: rest').length = rest'.length + 1 from rfl, List.range_succ_eq_map]
    by_cases hC : ((ch = '#') &&
        !(pre.countP (fun c => c = '\'' || c = '"') % 2 == 1) &&
        (match pre.getLast? with | none => true | some c => isSpace c)) = true
    · rw [List.find?_cons_of_pos _ (by rw [hbound]; exact hC)]
      simp only [List.take_zero]
      rw [stripCommentGo_cons, if_pos hC]
    · rw [List.find?_cons_of_neg _ (by rw [hbound]; simpa using hC)]
      rw [stripCommentGo_cons, if_neg hC]
      have hfun : (fun j => isCommentStart (pre ++ ch :: rest') (pre.length + j)) ∘ Nat.succ
          = (fun j => isCommentStart ((pre ++ [ch]) ++ rest') ((pre ++ [ch]).length + j)) := by
        funext j
        show isCommentStart (pre ++ ch :: rest') (pre.length + (j + 1))
            = isCommentStart ((pre ++ [ch]) ++ rest') ((pre ++ [ch]).length + j)
        rw [← List.append_cons]
        congr 1
        simp only [List.length_append, List.length_cons, List.length_nil]
        omega
      have hinq : (if ch = '\'' || ch = '"'
            then !(pre.countP (fun c => c = '\'' || c = '"') % 2 == 1)
            else (pre.countP (fun c => c = '\'' || c = '"') % 2 == 1))
          = ((pre ++ [ch]).countP (fun c => c = '\'' || c = '"') % 2 == 1) := by
        rw [List.countP_append]
        by_cases hq : (ch = '\'' || ch = '"') = true
        · rw [if_pos hq]
          rw [show List.countP (fun c => decide (c = '\'') || decide (c = '"')) [ch] = 1
            from by simp [List.countP, List.countP.go, hq]]
          rw [parity_flip]
        · rw [if_neg hq]
          rw [show List.countP (fun c => decide (c = '\'') || decide (c = '"')) [ch] = 0
            from by simp [List.countP, List.countP.go, hq]]
          rw [Nat.add_zero]
      have hlast : some ch = (pre ++ [ch]).getLast? := (List.getLast?_concat pre).symm
      rw [hinq, hlast, ih (pre ++ [ch])]
      rw [List.find?_map, hfun]
      cases hres : (List.range rest'.length).find?
          (fun j => isCommentStart ((pre ++ [ch]) ++ rest') ((pre ++ [ch]).length + j)) with
      | some j => simp [List.take_succ_cons]
      | none => simp

/-- The embedded `_strip_inline_comment` is the specification-side
comment stripping: cut at the first `#` that is outside quotes and at
line start or preceded by whitespace, then right-strip. -/
theorem stripInline_spec (line : Str) : stripInlineComment line = specStripInline line := by
  unfold stripInlineComment specStripInline
  have h := stripCommentGo_spec line []
  simp only [List.countP_nil, Nat.zero_mod, List.nil_append, List.length_nil,
    Nat.zero_add] at h
  rw [show (List.getLast? ([] : Str)) = none from rfl] at h
  rw [show ((0 : Nat) % 2 == 1) = false from rfl] at h
  rw [h]
  cases hf : (List.range line.length).find? (fun i => isCommentStart line i) with
  | some i => rfl
  | none => rfl

/-- A raw line that survives both skip checks but does not split into
exactly two whitespace-separated columns. -/
def badColumns (raw : Str) : Bool :=
  !(pystrip raw = [] || (pystrip raw).head? = some '#') &&
  !(pystrip (stripInlineComment raw) = []) &&
  !((pysplit (pystrip (stripInlineComment raw))).length = 2)

/-- One step of the line parser. -/
theorem parseLines_cons (src : Str) (idx : Nat) (raw : Str) (rest : List Str) :
    parseLines src idx (raw :: rest)
      = if pystrip raw = [] || (pystrip raw).head? = some '#'
        then parseLines src (idx + 1) rest
        else if pystrip (stripInlineComment raw) = []
        then parseLines src (idx + 1) rest
        else
          match pysplit (pystrip (stripInlineComment raw)) with
          | [pat0, svc0] =>
            if pystrip svc0 = [] then .error (.emptyService idx)
            else
              match compilePattern (pystrip pat0) with
              | .error e => .error (.badPattern idx e)
              | .ok cp =>
                match parseLines src (idx + 1) rest with
                | .error e => .error e
                | .ok rs =>
                  .ok ({ pattern := pystrip pat0, service := pystrip svc0, line := idx,
                         source := src, compiled := cp } :: rs)
          | _ => .error (.wrongColumns idx) := rfl

/-- A line with the wrong column count anywhere in the input makes the
whole parse fail. -/
theorem parseLines_bad_fails (src : Str) : ∀ (lines : List Str) (idx : Nat),
    (∃ raw ∈ lines, badColumns raw = true) → (parseLines src idx lines).isOk = false := by
  intro lines
  induction lines with
  | nil => intro idx h; simp at h
  | cons raw rest ih =>
    intro idx h
    rw [parseLines_cons]
    by_cases h1 : (pystrip raw = [] || (pystrip raw).head? = some '#') = true
    · rw [if_pos h1]
      rcases h with ⟨raw', hmem, hbad⟩
      rcases List.mem_cons.1 hmem with rfl | hmem'
      · unfold badColumns at hbad
        rw [h1] at hbad
        simp at hbad
      · exact ih (idx + 1) ⟨raw', hmem', hbad⟩
    · rw [if_neg h1]
      by_cases h2 : pystrip (stripInlineComment raw) = []
      · rw [if_pos h2]
        rcases h with ⟨raw', hmem, hbad⟩
        rcases List.mem_cons.1 hmem with rfl | hmem'
        · unfold badColumns at hbad
          simp [h2] at hbad
        · exact ih (idx + 1) ⟨raw', hmem', hbad⟩
      · rw [if_neg h2]
        cases hps : pysplit (pystrip (stripInlineComment raw)) with
        | nil => rfl
        | cons p0 ps =>
          cases ps with
          | nil => rfl
          | cons p1 ps2 =>
            cases ps2 with
            | cons p2 ps3 => rfl
            | nil =>
              -- exactly two columns: the bad line must be in the rest
              have hrest : ∃ raw' ∈ rest, badColumns raw' = true := by
                rcases h with ⟨raw', hmem, hbad⟩
                rcases List.mem_cons.1 hmem with rfl | hmem'
                · unfold badColumns at hbad
                  simp [hps] at hbad
                · exact ⟨raw', hmem', hbad⟩
              show (if pystrip p1 = [] then
                      (Except.error (ParseErr.emptyService idx) : Except ParseErr (List Rule))
                    else
                      match compilePattern (pystrip p0) with
                      | .error e => .error (.badPattern idx e)
                      | .ok cp =>
                        match parseLines src (idx + 1) rest with
                        | .error e => .error e
                        | .ok rs =>
                          .ok ({ pattern := pystrip p0, service := pystrip p1,
                                 line := idx, source := src, compiled := cp } :: rs)).isOk
                  = false
              by_cases h3 : pystrip p1 = []
              · rw [if_pos h3]
                rfl
              · rw [if_neg h3]
                cases hcp : compilePattern (pystrip p0) with
                | error e => rfl
                | ok cp =>
                  cases hpl : parseLines src (idx + 1) rest with
                  | error e => rfl
                  | ok rs =>
                    have := ih (idx + 1) hrest
                    rw [hpl] at this
                    simp [Except.isOk, Except.toBool] at this

/-- C9 counterexample: in the line consisting of a quote, `a`, a space
and `#`, the `#` is preceded by whitespace yet does not start a comment
(the quote suppresses it); the line parses as the two columns `'a` and
`#` instead of failing with one column. -/
theorem C9_counterexample :
    (stripInlineComment ['\'', 'a', ' ', '#'] = ['\'', 'a', ' ', '#']) ∧
    ((parseServiceownersText ['\'', 'a', ' ', '#']).map (fun rs =>
        rs.map (fun r => (r.pattern, r.service)))
      = .ok [(['\'', 'a'], ['#'])]) := by
  constructor
  · decide
  · decide

/-- C9 (amended): in the rule-file parser a `#` starts a comment iff it
is outside quotes (an even number of `'`/`"` characters precede it on the
line) and is at line start or preceded by whitespace; and every kept line
that does not split into exactly two whitespace-separated columns makes
parsing fail. -/
theorem C9_comment_and_columns :
    (∀ line, stripInlineComment line = specStripInline line) ∧
    (∀ text, (∃ raw ∈ splitlines text, badColumns raw = true) →
        (parseServiceownersText text).isOk = false) :=
  ⟨stripInline_spec,
   fun text h => parseLines_bad_fails ("SERVICEOWNERS".toList) (splitlines text) 1 h⟩

/-- C9 witness: the amended theorem at a concrete line and a concrete
three-column text. -/
theorem C9_comment_and_columns_witness :
    (stripInlineComment ("x # y".toList) = specStripInline ("x # y".toList)) ∧
    (∃ raw ∈ splitlines ("a b c".toList), badColumns raw = true) ∧
    (parseServiceownersText ("a b c".toList)).isOk = false :=
  ⟨C9_comment_and_columns.1 ("x # y".toList), by decide,
   C9_comment_and_columns.2 ("a b c".toList) (by decide)⟩

/-! Claim C5: order-independence of `compute_impact`. -/

/-- Heads of a lexicographic comparison. -/
theorem lexLe_cons_iff (a b : Char) (s t : Str) :
    lexLe (a :: s) (b :: t) = true ↔ a < b ∨ (a = b ∧ lexLe s t = true) := by
  show (if a < b then true else if b < a then false else lexLe s t) = true ↔ _
  rcases lt_trichotomy a b with h | h | h
  · simp [h]
  · subst h
    simp [lt_irrefl]
  · simp [h, lt_asymm h, ne_of_gt h]

/-- Totality of the string order. -/
theorem lexLe_total : ∀ s t : Str, lexLe s t = true ∨ lexLe t s = true := by
  intro s
  induction s with
  | nil => intro t; exact Or.inl rfl
  | cons a s ih =>
    intro t
    cases t with
    | nil => exact Or.inr rfl
    | cons b t =>
      rcases lt_trichotomy a b with h | h | h
      · exact Or.inl ((lexLe_cons_iff a b s t).2 (Or.inl h))
      · subst h
        rcases ih t with h2 | h2
        · exact Or.inl ((lexLe_cons_iff a a s t).2 (Or.inr ⟨rfl, h2⟩))
        · exact Or.inr ((lexLe_cons_iff a a t s).2 (Or.inr ⟨rfl, h2⟩))
      · exact Or.inr ((lexLe_cons_iff b a t s).2 (Or.inl h))

/-- Transitivity of the string order. -/
theorem lexLe_trans : ∀ s t u : Str,
    lexLe s t = true → lexLe t u = true → lexLe s u = true := by
  intro s
  induction s with
  | nil => intro t u _ _; rfl
  | cons a s ih =>
    intro t u hst htu
    cases t with
    | nil => simp [lexLe] at hst
    | cons b t =>
      cases u with
      | nil => simp [lexLe] at htu
      | cons c u =>
        rcases (lexLe_cons_iff a b s t).1 hst with h1 | ⟨rfl, h1⟩
        · rcases (lexLe_cons_iff b c t u).1 htu with h2 | ⟨rfl, h2⟩
          · exact (lexLe_cons_iff a c s u).2 (Or.inl (lt_trans h1 h2))
          · exact (lexLe_cons_iff a b s u).2 (Or.inl h1)
        · rcases (lexLe_cons_iff a c t u).1 htu with h2 | ⟨rfl, h2⟩
          · exact (lexLe_cons_iff a c s u).2 (Or.inl h2)
          · exact (lexLe_cons_iff a a s u).2 (Or.inr ⟨rfl, ih t u h1 h2⟩)

/-- Antisymmetry of the string order. -/
theorem lexLe_antisymm : ∀ s t : Str,
    lexLe s t = true → lexLe t s = true → s = t := by
  intro s
  induction s with
  | nil =>
    intro t _ hts
    cases t with
    | nil => rfl
    | cons b t => simp [lexLe] at hts
  | cons a s ih =>
    intro t hst hts
    cases t with
    | nil => simp [lexLe] at hst
    | cons b t =>
      rcases (lexLe_cons_iff a b s t).1 hst with h1 | ⟨rfl, h1⟩
      · rcases (lexLe_cons_iff b a t s).1 hts with h2 | ⟨rfl, h2⟩
        · exact absurd h2 (lt_asymm h1)
        · exact absurd h1 (lt_irrefl _)
      · rcases (lexLe_cons_iff a a t s).1 hts with h2 | ⟨_, h2⟩
        · exact absurd h2 (lt_irrefl _)
        · rw [ih t h1 h2]

instance : IsTotal Str strLe := ⟨lexLe_total⟩

instance : IsTrans Str strLe := ⟨lexLe_trans⟩

instance : IsAntisymm Str strLe := ⟨lexLe_antisymm⟩

/-- `sorted(set(...))` only depends on the multiset of inputs. -/
theorem sortedDedup_perm_inv (l₁ l₂ : List Str) (h : List.Perm l₁ l₂) :
    sortedDedup l₁ = sortedDedup l₂ :=
  List.eq_of_perm_of_sorted
    ((List.perm_insertionSort strLe l₁.dedup).trans
      (h.dedup.trans (List.perm_insertionSort strLe l₂.dedup).symm))
    (List.sorted_insertionSort strLe l₁.dedup)
    (List.sorted_insertionSort strLe l₂.dedup)

/-- `sorted(set(...))` is sorted. -/
theorem sortedDedup_sorted (l : List Str) : List.Sorted strLe (sortedDedup l) :=
  List.sorted_insertionSort strLe l.dedup

/-- `sorted(set(...))` has no duplicates. -/
theorem sortedDedup_nodup (l : List Str) : (sortedDedup l).Nodup :=
  ((List.perm_insertionSort strLe l.dedup).symm).nodup (List.nodup_dedup l)

/-- The loop step when the path is unmapped. -/
theorem impactStep_none (rules : List Rule) (d : List (Str × List Str)) (un : List Str)
    (ov : List (Str × List Str)) (p : Str) (h : (indexMatch rules p).service = none) :
    impactStep rules (d, un, ov) p = (d, un ++ [p], ov) := by
  show (match (indexMatch rules p).service with
        | none => (d, un ++ [p], ov)
        | some svc =>
          (dictAppend d svc p, un,
           if 1 < (indexMatch rules p).ruleMatches.length
           then alSet ov p ((indexMatch rules p).ruleMatches.map (fun r => r.service))
           else ov)) = (d, un ++ [p], ov)
  rw [h]

/-- The loop step when the path is owned. -/
theorem impactStep_some (rules : List Rule) (d : List (Str × List Str)) (un : List Str)
    (ov : List (Str × List Str)) (p : Str) (svc : Str)
    (h : (indexMatch rules p).service = some svc) :
    impactStep rules (d, un, ov) p
      = (dictAppend d svc p, un,
         if 1 < (indexMatch rules p).ruleMatches.length
         then alSet ov p ((indexMatch rules p).ruleMatches.map (fun r => r.service))
         else ov) := by
  show (match (indexMatch rules p).service with
        | none => (d, un ++ [p], ov)
        | some svc =>
          (dictAppend d svc p, un,
           if 1 < (indexMatch rules p).ruleMatches.length
           then alSet ov p ((indexMatch rules p).ruleMatches.map (fun r => r.service))
           else ov))
      = (dictAppend d svc p, un,
         if 1 < (indexMatch rules p).ruleMatches.length
         then alSet ov p ((indexMatch rules p).ruleMatches.map (fun r => r.service))
         else ov)
  rw [h]

/-- The unmapped bucket accumulated by the loop. -/
theorem impact_unmapped (rules : List Rule) : ∀ (paths : List Str)
    (d : List (Str × List Str)) (un : List Str) (ov : List (Str × List Str)),
    (paths.foldl (impactStep rules) (d, un, ov)).2.1
      = un ++ paths.filter (fun p => ((indexMatch rules p).service).isNone) := by
  intro paths
  induction paths with
  | nil => intro d un ov; simp
  | cons p rest ih =>
    intro d un ov
    rw [List.foldl_cons]
    cases hsvc : (indexMatch rules p).service with
    | none =>
      rw [impactStep_none rules d un ov p hsvc, ih,
        List.filter_cons_of_pos (by simp [hsvc])]
      simp
    | some svc =>
      rw [impactStep_some rules d un ov p svc hsvc, ih,
        List.filter_cons_of_neg (by simp [hsvc])]

/-- Extending a bucket. -/
def bucketJoin (o : Option (List Str)) (f : List Str) : Option (List Str) :=
  match o, f with
  | none, [] => none
  | none, f => some f
  | some vs, f => some (vs ++ f)

/-- Joining nothing. -/
theorem bucketJoin_nil (o : Option (List Str)) : bucketJoin o [] = o := by
  cases o with
  | none => rfl
  | some vs => simp [bucketJoin]

/-- Joining one more file. -/
theorem bucketJoin_cons (o : Option (List Str)) (x : Str) (f : List Str) :
    bucketJoin o (x :: f) = bucketJoin (some ((o.getD []) ++ [x])) f := by
  cases o with
  | none =>
    cases f with
    | nil => rfl
    | cons y g => simp [bucketJoin]
  | some vs => simp [bucketJoin]

/-- The per-service bucket accumulated by the loop. -/
theorem impact_buckets (rules : List Rule) : ∀ (paths : List Str)
    (d : List (Str × List Str)) (un : List Str) (ov : List (Str × List Str)) (svc : Str),
    alGet (paths.foldl (impactStep rules) (d, un, ov)).1 svc
      = bucketJoin (alGet d svc)
          (paths.filter (fun p => (indexMatch rules p).service == some svc)) := by
  intro paths
  induction paths with
  | nil => intro d un ov svc; simp [bucketJoin_nil]
  | cons p rest ih =>
    intro d un ov svc
    rw [List.foldl_cons]
    cases hsvc : (indexMatch rules p).service with
    | none =>
      rw [impactStep_none rules d un ov p hsvc, ih,
        List.filter_cons_of_neg (by simp [hsvc])]
    | some svc' =>
      rw [impactStep_some rules d un ov p svc' hsvc]
      by_cases heq : svc' = svc
      · subst heq
        rw [ih, List.filter_cons_of_pos (by simp [hsvc])]
        unfold dictAppend
        rw [alGet_alSet]
        rw [if_pos rfl, bucketJoin_cons]
      · rw [ih, List.filter_cons_of_neg (by simp [hsvc, heq])]
        unfold dictAppend
        rw [alGet_alSet, if_neg (fun hh => heq hh.symm)]

/-- Lookup through the per-bucket `sorted(set(...))` pass. -/
theorem alGet_mapValues (f : List Str → List Str) :
    ∀ (d : List (Str × List Str)) (svc : Str),
      alGet (mapValues f d) svc = (alGet d svc).map f := by
  intro d
  induction d with
  | nil => intro svc; rfl
  | cons kv rest ih =>
    intro svc
    unfold mapValues at ih ⊢
    show alGet ((kv.1, f kv.2) :: rest.map _) svc = _
    unfold alGet
    by_cases h : kv.1 = svc
    · simp [h]
    · simp only [h, if_false]
      exact ih svc

/-- The final service buckets of `compute_impact`. -/
theorem computeImpact_lookup (rules : List Rule) (paths : List Str) (svc : Str) :
    alGet (computeImpact rules paths).servicesToFiles svc
      = (bucketJoin none
          (paths.filter (fun p => (indexMatch rules p).service == some svc))).map
            sortedDedup := by
  show alGet (mapValues sortedDedup (paths.foldl (impactStep rules) ([], [], [])).1) svc = _
  rw [alGet_mapValues, impact_buckets]
  rfl

/-- The final unmapped list of `compute_impact`. -/
theorem computeImpact_unmapped (rules : List Rule) (paths : List Str) :
    (computeImpact rules paths).unmappedFiles
      = sortedDedup (paths.filter (fun p => ((indexMatch rules p).service).isNone)) := by
  show sortedDedup (paths.foldl (impactStep rules) ([], [], [])).2.1 = _
  rw [impact_unmapped]
  rfl

/-- C5: `compute_impact` is order-independent and deterministic: on
permuted input path lists (repeats included) the service-to-files mapping
and the unmapped list agree, and every bucket as well as the unmapped
list is deduplicated and sorted lexicographically. -/
theorem C5_impact_order_independent (rules : List Rule) (paths₁ paths₂ : List Str)
    (hperm : List.Perm paths₁ paths₂) :
    (∀ svc, alGet (computeImpact rules paths₁).servicesToFiles svc
        = alGet (computeImpact rules paths₂).servicesToFiles svc) ∧
    (computeImpact rules paths₁).unmappedFiles
      = (computeImpact rules paths₂).unmappedFiles ∧
    (∀ svc l, alGet (computeImpact rules paths₁).servicesToFiles svc = some l →
        l.Nodup ∧ List.Sorted strLe l) ∧
    (computeImpact rules paths₁).unmappedFiles.Nodup ∧
    List.Sorted strLe (computeImpact rules paths₁).unmappedFiles := by
  have hfilters : ∀ svc : Str,
      List.Perm (paths₁.filter (fun p => (indexMatch rules p).service == some svc))
        (paths₂.filter (fun p => (indexMatch rules p).service == some svc)) :=
    fun svc => hperm.filter _
  refine ⟨?_, ?_, ?_, ?_, ?_⟩
  · intro svc
    rw [computeImpact_lookup, computeImpact_lookup]
    cases hf : paths₁.filter (fun p => (indexMatch rules p).service == some svc) with
    | nil =>
      have hf2 : paths₂.filter (fun p => (indexMatch rules p).service == some svc) = [] := by
        have := hfilters svc
        rw [hf] at this
        exact this.symm.eq_nil
      rw [hf2]
    | cons x f =>
      cases hf2 : paths₂.filter (fun p => (indexMatch rules p).service == some svc) with
      | nil =>
        have := hfilters svc
        rw [hf, hf2] at this
        exact absurd this.eq_nil (by simp)
      | cons y g =>
        have hpf := hfilters svc
        rw [hf, hf2] at hpf
        show some (sortedDedup (x :: f)) = some (sortedDedup (y :: g))
        rw [sortedDedup_perm_inv _ _ hpf]
  · rw [computeImpact_unmapped, computeImpact_unmapped]
    exact sortedDedup_perm_inv _ _ (hperm.filter _)
  · intro svc l hl
    rw [computeImpact_lookup] at hl
    cases hf : paths₁.filter (fun p => (indexMatch rules p).service == some svc) with
    | nil => rw [hf] at hl; exact absurd hl (by simp [bucketJoin])
    | cons x f =>
      rw [hf] at hl
      have : l = sortedDedup (x :: f) := by
        simp only [bucketJoin, Option.map_some] at hl
        injection hl with hl
        exact hl.symm
      rw [this]
      exact ⟨sortedDedup_nodup _, sortedDedup_sorted _⟩
  · rw [computeImpact_unmapped]
    exact sortedDedup_nodup _
  · rw [computeImpact_unmapped]
    exact sortedDedup_sorted _

/-- C5 witness: the theorem applied to a concrete permutation with a
repeated path. -/
theorem C5_impact_order_independent_witness :
    List.Perm ["b".toList, "a".toList, "a".toList] ["a".toList, "b".toList, "a".toList] ∧
    ((∀ svc, alGet (computeImpact [] ["b".toList, "a".toList, "a".toList]).servicesToFiles svc
        = alGet (computeImpact [] ["a".toList, "b".toList, "a".toList]).servicesToFiles svc) ∧
     (computeImpact [] ["b".toList, "a".toList, "a".toList]).unmappedFiles
       = (computeImpact [] ["a".toList, "b".toList, "a".toList]).unmappedFiles ∧
     (∀ svc l, alGet (computeImpact [] ["b".toList, "a".toList, "a".toList]).servicesToFiles svc
          = some l → l.Nodup ∧ List.Sorted strLe l) ∧
     (computeImpact [] ["b".toList, "a".toList, "a".toList]).unmappedFiles.Nodup ∧
     List.Sorted strLe
       (computeImpact [] ["b".toList, "a".toList, "a".toList]).unmappedFiles) :=
  ⟨List.Perm.swap ("a".toList) ("b".toList) ["a".toList],
   C5_impact_order_independent [] _ _
     (List.Perm.swap ("a".toList) ("b".toList) ["a".toList])⟩

end ServiceOwners
